import Mathlib

/-!
# Verification of the caspailleur enumeration core

This file gives a shallow embedding in Lean 4 of the parts of the
caspailleur repository (`src/caspailleur/`) that the verified claims are
about, together with theorems settling those claims.

Conventions of the embedding:

* Python `frozenset[int]` values (attribute sets, object sets) become
  `Finset ℕ`; fixed-width bitarrays over the attributes of a context
  become `Finset (Fin n)` with the width `n` carried by the type.
* Python functions that can raise (`IndexError`, `KeyError`, `ValueError`,
  `AssertionError`) become `Option`-valued functions, `none` modelling a
  raised exception.
* Unbounded `while` loops are written with an explicit fuel argument that
  is provably large enough for the loop to reach its exit condition.
* Python's `sorted` (a stable sort) is modelled by a stable insertion
  sort on the same key.
-/

namespace Caspailleur

/-! ## Stable insertion sort

`sorted` in Python is stable; `insertSorted` places a new element after
every already-placed element whose key is `≤` its own, which yields the
same list as any stable sort by the same key. -/

/-- Insert `x` after all elements `y` with `le y x`. -/
def insertSorted {α : Type} (le : α → α → Bool) (x : α) : List α → List α
  | [] => [x]
  | y :: ys => if le y x then y :: insertSorted le x ys else x :: y :: ys

/-- Stable sort by the boolean relation `le`. -/
def stableSort {α : Type} (le : α → α → Bool) : List α → List α
  | [] => []
  | x :: xs => insertSorted le x (stableSort le xs)

/-! ## `base_functions.extension` and `definitions.closure`

`extension(description, crosses_per_columns)` from
`src/caspailleur/base_functions.py`:

```python
n_rows = max(max(col) + 1 for col in crosses_per_columns if col)
extent = set(range(n_rows))
for m in description:
    extent &= crosses_per_columns[m]
return frozenset(extent)
```

`max` of an empty generator (all columns empty, or no columns) raises
`ValueError`; `crosses_per_columns[m]` with `m` out of range raises
`IndexError`.  Both are modelled by `none`.  The intersection fold is
rendered as a filter of the initial extent by membership in every chosen
column, which is the same set. -/

/-- `extension` from `base_functions.py` (frozenset version). -/
def extension (description : Finset ℕ) (cols : List (Finset ℕ)) : Option (Finset ℕ) :=
  if (cols.filter (fun c => ¬ c = ∅)).isEmpty then none
  else if ¬ ∀ m ∈ description, m < cols.length then none
  else
    let nRows := ((cols.filter (fun c => ¬ c = ∅)).map (fun c => c.sup id + 1)).foldr max 0
    some ((Finset.range nRows).filter (fun r => ∀ m ∈ description, r ∈ cols.getD m ∅))

/-- `intention` from `base_functions.py`: attributes whose column contains
all the given objects. -/
def intention (objects : Finset ℕ) (cols : List (Finset ℕ)) : Finset ℕ :=
  (Finset.range cols.length).filter (fun m => objects ⊆ cols.getD m ∅)

/-- `closure` from `definitions.py`:

```python
n_rows = max(max(col) for col in crosses_per_columns)
extent = frozenset(range(n_rows))
for m in B:
    extent = extent & crosses_per_columns[m]
intent = frozenset({m for m, col in enumerate(crosses_per_columns)
                    if m in B or is_subset_of(extent, col)})
```

Here the generator applies `max` to every column, so it raises
`ValueError` as soon as any single column is empty (or when there are no
columns); note also the missing `+ 1` on `n_rows`. -/
def defsClosure (B : Finset ℕ) (cols : List (Finset ℕ)) : Option (Finset ℕ) :=
  if cols.isEmpty then none
  else if ¬ (cols.all (fun c => ¬ c = ∅)) then none
  else if ¬ ∀ m ∈ B, m < cols.length then none
  else
    let nRows := (cols.map (fun c => c.sup id)).foldr max 0
    let extent := (Finset.range nRows).filter (fun r => ∀ m ∈ B, r ∈ cols.getD m ∅)
    some ((Finset.range cols.length).filter (fun m => m ∈ B ∨ extent ⊆ cols.getD m ∅))

/-! ## `saturate`

The (key, premise, intent-index) saturation from
`list_pseudo_intents_via_keys` in `src/caspailleur/implication_bases.py`:

```python
new_closure, old_closure = set(new_prem), None
new_unused_impl, old_unused_impl = list(impls), None
while old_closure != new_closure:
    old_closure, old_unused_impl = set(new_closure), new_unused_impl
    new_unused_impl = []
    for (old_key, old_prem, old_closure_i) in old_unused_impl:
        if not old_prem < new_closure:
            new_unused_impl.append((old_key, old_prem, old_closure_i))
            continue
        new_closure |= intents_[old_closure_i]
return frozenset(new_closure)
```

A rule fires when its premise is a *proper* subset (`<`) of the running
closure; fired rules are dropped from later scans; the loop stops when a
whole scan leaves the closure unchanged.  Every scan that changes the
closure fires (hence drops) at least one rule, so `length + 1` scans
always reach the fixed point. -/

/-- One forward scan of the rule list: fire every rule whose premise is a
proper subset of the running closure, keep the others. -/
def saturatePass (intents : List (Finset ℕ)) :
    Finset ℕ → List (Finset ℕ × Finset ℕ × ℕ) →
    Finset ℕ × List (Finset ℕ × Finset ℕ × ℕ)
  | cur, [] => (cur, [])
  | cur, (k, p, i) :: rest =>
    if p ⊂ cur then saturatePass intents (cur ∪ intents.getD i ∅) rest
    else
      let r := saturatePass intents cur rest
      (r.1, (k, p, i) :: r.2)

/-- Repeat scans until one changes nothing (with fuel). -/
def saturateLoop (intents : List (Finset ℕ)) :
    ℕ → Finset ℕ → List (Finset ℕ × Finset ℕ × ℕ) → Finset ℕ
  | 0, cur, _ => cur
  | fuel + 1, cur, impls =>
    let r := saturatePass intents cur impls
    if r.1 = cur then cur else saturateLoop intents fuel r.1 r.2

/-- `saturate(new_prem, impls, intents_)` from `list_pseudo_intents_via_keys`. -/
def saturate (prem : Finset ℕ) (impls : List (Finset ℕ × Finset ℕ × ℕ))
    (intents : List (Finset ℕ)) : Finset ℕ :=
  saturateLoop intents (impls.length + 1) prem impls

/-- The set `T` satisfies every rule of `impls` in the sense actually
implemented by `saturate`: a premise that is a *proper* subset of `T`
forces the rule's intent into `T`. -/
def ClosedUnder (intents : List (Finset ℕ)) (impls : List (Finset ℕ × Finset ℕ × ℕ))
    (T : Finset ℕ) : Prop :=
  ∀ r ∈ impls, r.2.1 ⊂ T → intents.getD r.2.2 ∅ ⊆ T

lemma saturatePass_subset (intents : List (Finset ℕ)) :
    ∀ (impls : List (Finset ℕ × Finset ℕ × ℕ)) (cur : Finset ℕ),
      cur ⊆ (saturatePass intents cur impls).1
  | [], cur => by simp [saturatePass]
  | (k, p, i) :: rest, cur => by
    simp only [saturatePass]
    split
    · exact Finset.subset_union_left.trans (saturatePass_subset intents rest _)
    · exact saturatePass_subset intents rest cur

lemma saturatePass_rem_mem (intents : List (Finset ℕ)) :
    ∀ (impls : List (Finset ℕ × Finset ℕ × ℕ)) (cur : Finset ℕ),
      ∀ r ∈ (saturatePass intents cur impls).2, r ∈ impls
  | [], cur => by simp [saturatePass]
  | (k, p, i) :: rest, cur => by
    simp only [saturatePass]
    split
    · intro r hr
      exact List.mem_cons_of_mem _ (saturatePass_rem_mem intents rest _ r hr)
    · intro r hr
      rcases List.mem_cons.1 hr with h | h
      · exact h ▸ List.mem_cons_self _ _
      · exact List.mem_cons_of_mem _ (saturatePass_rem_mem intents rest cur r h)

lemma saturatePass_rem_length_le (intents : List (Finset ℕ)) :
    ∀ (impls : List (Finset ℕ × Finset ℕ × ℕ)) (cur : Finset ℕ),
      (saturatePass intents cur impls).2.length ≤ impls.length
  | [], cur => by simp [saturatePass]
  | (k, p, i) :: rest, cur => by
    simp only [saturatePass, List.length_cons]
    split
    · exact (saturatePass_rem_length_le intents rest _).trans (Nat.le_succ _)
    · simpa using saturatePass_rem_length_le intents rest cur

lemma saturatePass_changed_length (intents : List (Finset ℕ)) :
    ∀ (impls : List (Finset ℕ × Finset ℕ × ℕ)) (cur : Finset ℕ),
      (saturatePass intents cur impls).1 ≠ cur →
      (saturatePass intents cur impls).2.length < impls.length
  | [], cur => by simp [saturatePass]
  | (k, p, i) :: rest, cur => by
    simp only [saturatePass, List.length_cons]
    split
    · intro _
      exact Nat.lt_succ_of_le (saturatePass_rem_length_le intents rest _)
    · intro h
      have : (saturatePass intents cur rest).1 ≠ cur := h
      simpa using Nat.succ_lt_succ (saturatePass_changed_length intents rest cur this)

lemma saturatePass_le_closed (intents : List (Finset ℕ)) :
    ∀ (impls : List (Finset ℕ × Finset ℕ × ℕ)) (cur T : Finset ℕ),
      cur ⊆ T → ClosedUnder intents impls T →
      (saturatePass intents cur impls).1 ⊆ T
  | [], cur, T => fun hc _ => by simpa [saturatePass] using hc
  | (k, p, i) :: rest, cur, T => by
    intro hc hT
    simp only [saturatePass]
    split
    · rename_i hp
      have hpT : p ⊂ T := by
        rcases hp with ⟨hps, hne⟩
        refine ⟨hps.trans hc, fun hTp => hne ?_⟩
        exact hc.trans hTp
      have hconc : intents.getD i ∅ ⊆ T := hT (k, p, i) (List.mem_cons_self _ _) hpT
      exact saturatePass_le_closed intents rest _ T (Finset.union_subset hc hconc)
        (fun r hr => hT r (List.mem_cons_of_mem _ hr))
    · exact saturatePass_le_closed intents rest cur T hc
        (fun r hr => hT r (List.mem_cons_of_mem _ hr))

lemma saturatePass_fixed (intents : List (Finset ℕ)) :
    ∀ (impls : List (Finset ℕ × Finset ℕ × ℕ)) (cur : Finset ℕ),
      (saturatePass intents cur impls).1 = cur →
      ∀ r ∈ impls, r.2.1 ⊂ cur → intents.getD r.2.2 ∅ ⊆ cur
  | [], cur => by simp
  | (k, p, i) :: rest, cur => by
    intro hfix r hr hrp
    simp only [saturatePass] at hfix
    by_cases hp : p ⊂ cur
    · rw [if_pos hp] at hfix
      have hgrow : cur ∪ intents.getD i ∅ ⊆ cur :=
        calc cur ∪ intents.getD i ∅
            ⊆ (saturatePass intents (cur ∪ intents.getD i ∅) rest).1 :=
              saturatePass_subset intents rest _
          _ = cur := hfix
      have hcc : intents.getD i ∅ ⊆ cur := Finset.union_subset_iff.1 hgrow |>.2
      have hcur : cur ∪ intents.getD i ∅ = cur :=
        Finset.union_eq_left.2 hcc
      rcases List.mem_cons.1 hr with h | h
      · subst h; exact hcc
      · exact saturatePass_fixed intents rest cur (by rw [hcur] at hfix; exact hfix)
          r h hrp
    · rw [if_neg hp] at hfix
      rcases List.mem_cons.1 hr with h | h
      · subst h; exact absurd hrp hp
      · exact saturatePass_fixed intents rest cur hfix r h hrp

lemma saturatePass_dropped (intents : List (Finset ℕ)) :
    ∀ (impls : List (Finset ℕ × Finset ℕ × ℕ)) (cur : Finset ℕ),
      ∀ r ∈ impls, r ∉ (saturatePass intents cur impls).2 →
        intents.getD r.2.2 ∅ ⊆ (saturatePass intents cur impls).1
  | [], cur => by simp
  | (k, p, i) :: rest, cur => by
    intro r hr hnot
    simp only [saturatePass] at hnot ⊢
    by_cases hp : p ⊂ cur
    · rw [if_pos hp] at hnot ⊢
      rcases List.mem_cons.1 hr with h | h
      · subst h
        exact (Finset.subset_union_right).trans (saturatePass_subset intents rest _)
      · exact saturatePass_dropped intents rest _ r h hnot
    · rw [if_neg hp] at hnot ⊢
      rcases List.mem_cons.1 hr with h | h
      · exact absurd (h ▸ List.mem_cons_self _ _) hnot
      · exact saturatePass_dropped intents rest cur r h
          (fun hm => hnot (List.mem_cons_of_mem _ hm))

lemma saturateLoop_spec (intents : List (Finset ℕ))
    (impls0 : List (Finset ℕ × Finset ℕ × ℕ)) :
    ∀ (fuel : ℕ) (impls : List (Finset ℕ × Finset ℕ × ℕ)) (cur : Finset ℕ),
      impls.length < fuel →
      (∀ r ∈ impls, r ∈ impls0) →
      (∀ r ∈ impls0, r ∈ impls ∨ intents.getD r.2.2 ∅ ⊆ cur) →
      cur ⊆ saturateLoop intents fuel cur impls ∧
      ClosedUnder intents impls0 (saturateLoop intents fuel cur impls)
  | 0, impls, cur => fun h => absurd h (by omega)
  | fuel + 1, impls, cur => by
    intro hlen hsub hfired
    simp only [saturateLoop]
    split
    · rename_i hfix
      refine ⟨le_refl _, fun r hr hrp => ?_⟩
      rcases hfired r hr with h | h
      · exact saturatePass_fixed intents impls cur hfix r h hrp
      · exact h
    · rename_i hfix
      have hchange : (saturatePass intents cur impls).1 ≠ cur := hfix
      have hlt : (saturatePass intents cur impls).2.length < fuel := by
        have := saturatePass_changed_length intents impls cur hchange
        omega
      have hsub' : ∀ r ∈ (saturatePass intents cur impls).2, r ∈ impls0 :=
        fun r hr => hsub r (saturatePass_rem_mem intents impls cur r hr)
      have hfired' : ∀ r ∈ impls0,
          r ∈ (saturatePass intents cur impls).2 ∨
          intents.getD r.2.2 ∅ ⊆ (saturatePass intents cur impls).1 := by
        intro r hr
        rcases hfired r hr with h | h
        · by_cases hmem : r ∈ (saturatePass intents cur impls).2
          · exact Or.inl hmem
          · exact Or.inr (saturatePass_dropped intents impls cur r h hmem)
        · exact Or.inr (h.trans (saturatePass_subset intents impls cur))
      obtain ⟨h1, h2⟩ := saturateLoop_spec intents impls0 fuel _ _ hlt hsub' hfired'
      exact ⟨(saturatePass_subset intents impls cur).trans h1, h2⟩

lemma saturateLoop_le (intents : List (Finset ℕ))
    (impls0 : List (Finset ℕ × Finset ℕ × ℕ)) :
    ∀ (fuel : ℕ) (impls : List (Finset ℕ × Finset ℕ × ℕ)) (cur T : Finset ℕ),
      cur ⊆ T → (∀ r ∈ impls, r ∈ impls0) → ClosedUnder intents impls0 T →
      saturateLoop intents fuel cur impls ⊆ T
  | 0, impls, cur, T => fun hc _ _ => by simpa [saturateLoop] using hc
  | fuel + 1, impls, cur, T => by
    intro hc hsub hT
    simp only [saturateLoop]
    split
    · exact hc
    · have hTimpls : ClosedUnder intents impls T := fun r hr => hT r (hsub r hr)
      exact saturateLoop_le intents impls0 fuel _ _ T
        (saturatePass_le_closed intents impls cur T hc hTimpls)
        (fun r hr => hsub r (saturatePass_rem_mem intents impls cur r hr)) hT

/-- C2 (amended): `saturate(P, Σ, intents)` is the unique smallest M-set
containing `P` that is closed under the rules "whenever `premise_i` is a
**proper** subset of the current set, add `intents[intent_idx_i]`".  (The
original claim used `⊆` and asserted the rule also fires when the premise
equals the current set; the code compares with `<`, i.e. `⊂`.) -/
theorem saturate_isLeast_properClosed (prem : Finset ℕ)
    (impls : List (Finset ℕ × Finset ℕ × ℕ)) (intents : List (Finset ℕ))
    (_hidx : ∀ r ∈ impls, r.2.2 < intents.length) :
    IsLeast {T | prem ⊆ T ∧ ClosedUnder intents impls T} (saturate prem impls intents) ∧
    ∀ S, IsLeast {T | prem ⊆ T ∧ ClosedUnder intents impls T} S →
      S = saturate prem impls intents := by
  have hspec := saturateLoop_spec intents impls (impls.length + 1) impls prem
    (Nat.lt_succ_self _) (fun r hr => hr) (fun r hr => Or.inl hr)
  have hleast : IsLeast {T | prem ⊆ T ∧ ClosedUnder intents impls T}
      (saturate prem impls intents) := by
    refine ⟨⟨hspec.1, hspec.2⟩, fun T hT => ?_⟩
    exact saturateLoop_le intents impls (impls.length + 1) impls prem T hT.1
      (fun r hr => hr) hT.2
  exact ⟨hleast, fun S hS => hS.unique hleast⟩

/-- Witness for `saturate_isLeast_properClosed` at a concrete input. -/
theorem saturate_isLeast_properClosed_witness :
    IsLeast {T | ({0} : Finset ℕ) ⊆ T ∧
        ClosedUnder [({0, 1} : Finset ℕ)] [(∅, ∅, 0)] T}
      (saturate {0} [(∅, ∅, 0)] [{0, 1}]) ∧
    ∀ S, IsLeast {T | ({0} : Finset ℕ) ⊆ T ∧
        ClosedUnder [({0, 1} : Finset ℕ)] [(∅, ∅, 0)] T} S →
      S = saturate {0} [(∅, ∅, 0)] [{0, 1}] :=
  saturate_isLeast_properClosed {0} [(∅, ∅, 0)] [{0, 1}] (by decide)

/-- C2 counterexample: with `P = {0}`, `Σ = [(key = ∅, premise = {0},
intent-index = 0)]` and `intents = [{0,1}]`, the code returns `{0}`: the
premise `{0}` is a subset (indeed equal) of the result, yet the conclusion
`{0,1}` has not been added, refuting the claim that the rule fires when
the premise merely `⊆`-fits (in particular when it equals the current
set). -/
theorem saturate_subset_rule_counterexample :
    saturate {0} [((∅ : Finset ℕ), ({0} : Finset ℕ), 0)] [({0, 1} : Finset ℕ)] = {0} ∧
    ({0} : Finset ℕ) ⊆ {0} ∧
    ¬ (({0, 1} : Finset ℕ) ⊆ ({0} : Finset ℕ)) := by decide

/-- C3: evaluation of the closure operators at the degenerate inputs named
by the claim.  `definitions.closure` raises (`none`) on the very
attribute-extent table used by the repository's own
`test_definitions.test_is_closed` (its column `e` is empty);
`base_functions.extension` raises on a table whose columns are all empty
instead of returning all objects; and on the table `[{0}, {0,1}]` (two
objects, object `1` lacking attribute `0`), `definitions.closure(∅)`
returns `{0,1}` although the intent shared by all objects is `{1}`. -/
theorem closure_empty_description_divergence :
    defsClosure ∅ [({1, 2} : Finset ℕ), {3, 4}, {2, 3, 4}, {1, 4}, ∅] = none ∧
    extension ∅ [(∅ : Finset ℕ)] = none ∧
    defsClosure ∅ [({0} : Finset ℕ), {0, 1}] = some {0, 1} ∧
    intention (Finset.range 2) [({0} : Finset ℕ), {0, 1}] = {1} ∧
    ¬ (({0, 1} : Finset ℕ) = {1}) := by decide

/-! ## `indices.linearity_index` and `indices.distributivity_index` -/

/-- Modelled from the spec: `test_topologically_sorted` is imported by
`indices.py` from `caspailleur.order`, but the `order.py` shipped in
`src/` does not define it.  Following the spec's topological-ordering
invariant (and the sibling inline asserts
`all(len(a) <= len(b) for a, b in zip(intents, intents[1:]))` elsewhere in
the source) it checks that the list is sorted by ascending cardinality. -/
def testTopologicallySorted (l : List (Finset ℕ)) : Bool :=
  (l.zip l.tail).all (fun p => p.1.card ≤ p.2.card)

/-- `linearity_index(n_trans_parents, n_elements, include_top_bottom)`
from `src/caspailleur/indices.py`.  The `ValueError` raised when
`n_comparable > n_pairs` is modelled by `none`; the float division by the
exact rational. -/
def linearity_index (nTransParents nElements : ℕ) (includeTopBottom : Bool) :
    Option ℚ :=
  let nPairs0 : ℕ := nElements * (nElements - 1) / 2
  let nComparable : ℤ :=
    if includeTopBottom then nTransParents
    else (nTransParents : ℤ) - (2 * nElements - 3)
  let nPairs : ℤ :=
    if includeTopBottom then nPairs0 else (nPairs0 : ℤ) - (2 * nElements - 3)
  if nComparable > nPairs then none
  else some (if nPairs ≠ 0 then (nComparable : ℚ) / (nPairs : ℚ) else 0)

/-- Ascending list of the elements of a finite set of naturals, mirroring
`bitarray.itersearch(True)`. -/
def finsetAsc (s : Finset ℕ) : List ℕ :=
  (List.range (s.sup id + 1)).filter (fun m => m ∈ s)

/-- The breadth-first walk inside `distributivity_index`: pop a pair of
lattice elements, skip it if (it or its reverse) was already visited,
otherwise count it and enqueue the pairs obtained by replacing one
component with one of its parents, as long as the pair still joins to
`intent`. -/
def distrWalk (intents parents : List (Finset ℕ)) (intent : Finset ℕ) :
    ℕ → List (ℕ × ℕ) → Finset (ℕ × ℕ) → ℕ → ℕ
  | 0, _, _, acc => acc
  | _ + 1, [], _, acc => acc
  | fuel + 1, pair :: queue, visited, acc =>
    if pair ∈ visited ∨ (pair.2, pair.1) ∈ visited then
      distrWalk intents parents intent fuel queue visited acc
    else
      let mother := pair.1
      let father := pair.2
      let newPairs1 := (finsetAsc (parents.getD father ∅)).filterMap
        (fun gfather =>
          if intents.getD mother ∅ ∪ intents.getD gfather ∅ = intent then
            some (mother, gfather) else none)
      let newPairs2 := (finsetAsc (parents.getD mother ∅)).filterMap
        (fun gmother =>
          if intents.getD gmother ∅ ∪ intents.getD father ∅ = intent then
            some (gmother, father) else none)
      distrWalk intents parents intent fuel (queue ++ newPairs1 ++ newPairs2)
        (insert pair visited) (acc + 1)

/-- The initial queue of `distr_ancestors` for one intent: ordered pairs
of its parents whose union is the intent itself. -/
def distrInitQueue (intents parents : List (Finset ℕ)) (idx : ℕ) : List (ℕ × ℕ) :=
  (finsetAsc (parents.getD idx ∅)).flatMap (fun mother =>
    (finsetAsc (parents.getD idx ∅)).filterMap (fun father =>
      if mother < father ∧
          intents.getD mother ∅ ∪ intents.getD father ∅ = intents.getD idx ∅ then
        some (mother, father) else none))

/-- `distributivity_index(intents, parents, n_trans_parents,
include_top_bottom)` from `src/caspailleur/indices.py`.  The walk fuel
`|queue| + 2·n³ + n² + 1` dominates the number of loop iterations (each
iteration either pops a visited pair or adds one of at most `n²` pairs to
`visited`, enqueueing at most `2n` new pairs), so the model agrees with
the unbounded Python loop.  The failing assert and the final `ValueError`
are modelled by `none`. -/
def distributivity_index (intents parents : List (Finset ℕ)) (nTransParents : ℕ)
    (includeTopBottom : Bool) : Option ℚ :=
  if ¬ testTopologicallySorted intents then none
  else
    let n := intents.length
    let nDistr0 : ℕ := (List.range n).foldl
      (fun acc idx =>
        let q0 := distrInitQueue intents parents idx
        distrWalk intents parents (intents.getD idx ∅)
          (q0.length + 2 * n * n * n + n * n + 1) q0 ∅ acc)
      nTransParents
    let nPairs0 : ℕ := n * (n - 1) / 2
    let nDistr : ℤ :=
      if includeTopBottom then nDistr0 else (nDistr0 : ℤ) - (2 * n - 3)
    let nPairs : ℤ :=
      if includeTopBottom then nPairs0 else (nPairs0 : ℤ) - (2 * n - 3)
    if nDistr > nPairs then none
    else some (if nPairs ≠ 0 then (nDistr : ℚ) / (nPairs : ℚ) else 0)

lemma distrWalk_le_acc (intents parents : List (Finset ℕ)) (intent : Finset ℕ) :
    ∀ (fuel : ℕ) (queue : List (ℕ × ℕ)) (visited : Finset (ℕ × ℕ)) (acc : ℕ),
      acc ≤ distrWalk intents parents intent fuel queue visited acc
  | 0, _, _, acc => le_refl acc
  | _ + 1, [], _, acc => le_refl acc
  | fuel + 1, pair :: queue, visited, acc => by
    simp only [distrWalk]
    split
    · exact distrWalk_le_acc intents parents intent fuel queue visited acc
    · exact (Nat.le_succ acc).trans (distrWalk_le_acc intents parents intent fuel _ _ _)

lemma distrFold_le_acc (intents parents : List (Finset ℕ)) (n : ℕ) :
    ∀ (idxs : List ℕ) (acc : ℕ),
      acc ≤ idxs.foldl
        (fun acc idx =>
          let q0 := distrInitQueue intents parents idx
          distrWalk intents parents (intents.getD idx ∅)
            (q0.length + 2 * n * n * n + n * n + 1) q0 ∅ acc)
        acc
  | [], acc => le_refl acc
  | idx :: idxs, acc => by
    refine le_trans ?_ (distrFold_le_acc intents parents n idxs _)
    exact distrWalk_le_acc intents parents _ _ _ _ acc

lemma pairs_sub_bound (n : ℕ) : 2 * (n : ℤ) - 3 ≤ ((n * (n - 1) / 2 : ℕ) : ℤ) := by
  rcases Nat.eq_zero_or_pos n with h | h
  · subst h; simp
  · have hdvd : 2 ∣ n * (n - 1) := by
      have hev : Even ((n - 1) * ((n - 1) + 1)) := Nat.even_mul_succ_self (n - 1)
      have h1 : (n - 1) + 1 = n := Nat.succ_pred_eq_of_pos h
      rw [h1, mul_comm] at hev
      exact hev.two_dvd
    have hP : 2 * (n * (n - 1) / 2) = n * (n - 1) := Nat.mul_div_cancel' hdvd
    have h1 : 1 ≤ n := h
    have hPz : 2 * ((n * (n - 1) / 2 : ℕ) : ℤ) = (n : ℤ) * ((n : ℤ) - 1) := by
      have hc := congrArg (fun m : ℕ => (m : ℤ)) hP
      simp only [Nat.cast_mul, Nat.cast_ofNat, Nat.cast_sub h1, Nat.cast_one] at hc
      exact hc
    have hfact : 0 ≤ ((n : ℤ) - 2) * ((n : ℤ) - 3) := by
      rcases le_or_lt (n : ℤ) 2 with hn | hn
      · nlinarith
      · nlinarith
    nlinarith [hPz, hfact]

lemma ratio_unit_interval (a b : ℤ) (ha : 0 ≤ a) (hb : 0 ≤ b) (hab : a ≤ b) :
    0 ≤ (if b ≠ 0 then (a : ℚ) / (b : ℚ) else 0) ∧
    (if b ≠ 0 then (a : ℚ) / (b : ℚ) else 0) ≤ 1 := by
  split
  · rename_i hbne
    have hbq : (0 : ℚ) < (b : ℚ) := by
      have : (0 : ℤ) < b := lt_of_le_of_ne hb (Ne.symm hbne)
      exact_mod_cast this
    constructor
    · exact div_nonneg (by exact_mod_cast ha) (le_of_lt hbq)
    · rw [div_le_one hbq]
      exact_mod_cast hab
  · norm_num

/-- C9: for lattice inputs (formalised by the single numeric fact that a
lattice on `n ≥ 2` elements has at least the `2n − 3` comparable pairs
involving its top and bottom, which is what the `include_top_bottom =
False` branch subtracts), every value returned by `linearity_index` and
by `distributivity_index` lies in `[0, 1]`.  Values are only returned
when the functions' internal `ValueError` guards pass; a raise returns no
value and is modelled by `none`. -/
theorem indices_in_unit_interval :
    (∀ (nTP nElem : ℕ) (b : Bool) (r : ℚ),
      (b = false → 2 * (nElem : ℤ) - 3 ≤ nTP) →
      linearity_index nTP nElem b = some r → 0 ≤ r ∧ r ≤ 1) ∧
    (∀ (intents parents : List (Finset ℕ)) (nTP : ℕ) (b : Bool) (r : ℚ),
      (b = false → 2 * (intents.length : ℤ) - 3 ≤ nTP) →
      distributivity_index intents parents nTP b = some r → 0 ≤ r ∧ r ≤ 1) := by
  constructor
  · intro nTP nElem b r hlat hr
    unfold linearity_index at hr
    set a : ℤ := if b then (nTP : ℤ) else (nTP : ℤ) - (2 * nElem - 3) with ha
    set bb : ℤ := if b then ((nElem * (nElem - 1) / 2 : ℕ) : ℤ)
      else ((nElem * (nElem - 1) / 2 : ℕ) : ℤ) - (2 * nElem - 3) with hbb
    by_cases hgt : a > bb
    · simp only [← ha, ← hbb, if_pos hgt] at hr
      exact absurd hr (by simp)
    · simp only [← ha, ← hbb, if_neg hgt] at hr
      have h0a : 0 ≤ a := by
        rw [ha]; cases b with
        | false =>
          rw [if_neg Bool.false_ne_true]
          have := hlat rfl
          omega
        | true =>
          rw [if_pos rfl]
          exact Int.natCast_nonneg _
      have h0b : 0 ≤ bb := by
        rw [hbb]; cases b with
        | false =>
          rw [if_neg Bool.false_ne_true]
          have := pairs_sub_bound nElem
          omega
        | true =>
          rw [if_pos rfl]
          exact Int.natCast_nonneg _
      have hab : a ≤ bb := not_lt.1 hgt
      have := ratio_unit_interval a bb h0a h0b hab
      rw [Option.some_inj] at hr
      rw [← hr]
      exact this
  · intro intents parents nTP b r hlat hr
    unfold distributivity_index at hr
    by_cases hsort : ¬ testTopologicallySorted intents
    · rw [if_pos hsort] at hr
      exact absurd hr (by simp)
    · rw [if_neg hsort] at hr
      set n := intents.length with hn
      set nDistr0 : ℕ := (List.range n).foldl
        (fun acc idx =>
          let q0 := distrInitQueue intents parents idx
          distrWalk intents parents (intents.getD idx ∅)
            (q0.length + 2 * n * n * n + n * n + 1) q0 ∅ acc)
        nTP with hD
      have hmono : nTP ≤ nDistr0 := distrFold_le_acc intents parents n (List.range n) nTP
      set a : ℤ := if b then (nDistr0 : ℤ) else (nDistr0 : ℤ) - (2 * n - 3) with ha
      set bb : ℤ := if b then ((n * (n - 1) / 2 : ℕ) : ℤ)
        else ((n * (n - 1) / 2 : ℕ) : ℤ) - (2 * n - 3) with hbb
      by_cases hgt : a > bb
      · simp only [← ha, ← hbb, if_pos hgt] at hr
        exact absurd hr (by simp)
      · simp only [← ha, ← hbb, if_neg hgt] at hr
        have h0a : 0 ≤ a := by
          rw [ha]; cases b with
          | false =>
            rw [if_neg Bool.false_ne_true]
            have := hlat rfl
            omega
          | true =>
            rw [if_pos rfl]
            exact Int.natCast_nonneg _
        have h0b : 0 ≤ bb := by
          rw [hbb]; cases b with
          | false =>
            rw [if_neg Bool.false_ne_true]
            have := pairs_sub_bound n
            omega
          | true =>
            rw [if_pos rfl]
            exact Int.natCast_nonneg _
        have hab : a ≤ bb := not_lt.1 hgt
        have := ratio_unit_interval a bb h0a h0b hab
        rw [Option.some_inj] at hr
        rw [← hr]
        exact this

/-- Witness for `indices_in_unit_interval` at concrete inputs. -/
theorem indices_in_unit_interval_witness :
    ((0 : ℚ) ≤ 0 ∧ (0 : ℚ) ≤ 1) ∧ ((0 : ℚ) ≤ 0 ∧ (0 : ℚ) ≤ 1) := by
  constructor
  · exact indices_in_unit_interval.1 0 1 true 0 (fun h => nomatch h) (by decide)
  · exact indices_in_unit_interval.2 [∅] [∅] 0 true 0 (fun h => nomatch h) (by decide)

/-! ## `order.topological_sorting` and `mine_equivalence_classes.list_intents_via_LCM`

`topological_sorting` from `src/caspailleur/order.py`:

```python
ars_topsort = sorted(elements, key=lambda el: (-el.count(), list(el.itersearch(1))))
```

The key orders by **descending** popcount (`-el.count()`), breaking ties
by the ascending lexicographic order of the lists of set-bit indices.
(The function also returns an index map that `list_intents_via_LCM`
discards with `[0]`; only the sorted list is modelled.)  Bitarrays of
width `m` are modelled as `Finset (Fin m)`. -/

/-- `list(el.itersearch(1))`: ascending indices of the set bits. -/
def onesList {m : ℕ} (A : Finset (Fin m)) : List ℕ :=
  ((List.finRange m).filter (fun i => i ∈ A)).map Fin.val

/-- Lexicographic `≤` on lists of naturals (Python list comparison). -/
def listLexLE : List ℕ → List ℕ → Bool
  | [], _ => true
  | _ :: _, [] => false
  | a :: as, b :: bs => if a < b then true else if a = b then listLexLE as bs else false

/-- The sort key comparison of `topological_sorting`:
`(-count, ones) ≤ (-count', ones')`. -/
def topsortLE {m : ℕ} (a b : Finset (Fin m)) : Bool :=
  b.card < a.card || (a.card = b.card && listLexLE (onesList a) (onesList b))

/-- `topological_sorting(elements)[0]` from `order.py`: stable sort by
descending popcount, ties by ascending bit-pattern. -/
def topological_sorting {m : ℕ} (elements : List (Finset (Fin m))) :
    List (Finset (Fin m)) :=
  stableSort topsortLE elements

/-- "Topologically sorted ascending" in the sense of the claims: adjacent
popcounts never decrease. -/
def cardsAscending {m : ℕ} (l : List (Finset (Fin m))) : Bool :=
  (l.zip l.tail).all (fun p => p.1.card ≤ p.2.card)

/-- Every subset of the `m` attributes, each exactly once. -/
def allAttrSubsets (m : ℕ) : List (Finset (Fin m)) :=
  ((List.finRange m).sublists).map List.toFinset

/-- Number of objects described by `C`. -/
def rowSupport {m : ℕ} (itemsets : List (Finset (Fin m))) (C : Finset (Fin m)) : ℕ :=
  (itemsets.filter (fun r => C ⊆ r)).length

/-- The attributes shared by every object described by `C`. -/
def rowClosure {m : ℕ} (itemsets : List (Finset (Fin m))) (C : Finset (Fin m)) :
    Finset (Fin m) :=
  Finset.univ.filter (fun a => ∀ r ∈ itemsets, C ⊆ r → a ∈ r)

/-- Modelled from the spec: the external scikit-mine `LCM` miner invoked
by `list_intents_via_LCM` (the miner itself is not part of this
repository).  Per the spec's intent-enumerator contract it emits every
*closed* itemset whose support meets the threshold; like the library it
does not emit the empty itemset (the caller reinstates the bottom intent
afterwards).  Its output order is irrelevant because the caller
immediately re-sorts with `topological_sorting`. -/
def lcmClosedItemsets {m : ℕ} (itemsets : List (Finset (Fin m))) (thr : ℕ) :
    List (Finset (Fin m)) :=
  (allAttrSubsets m).filter
    (fun C => decide (C ≠ ∅ ∧ thr ≤ rowSupport itemsets C ∧ rowClosure itemsets C = C))

/-- `list_intents_via_LCM(itemsets, min_supp)` from
`src/caspailleur/mine_equivalence_classes.py` for an integer `min_supp`:

```python
min_supp = int(min_supp)
lcm = LCM(min_supp=max(min_supp, 1))
intents = topological_sorting(list(isets2bas(...)))[0]
biggest_intent_support = sum(itemset.all() for itemset in itemsets)
if biggest_intent_support >= min_supp:
    if not intents[-1].all():
        intents.append(fbarray(~bazeros(n_attrs)))
smallest_intent = reduce(bitarray.__and__, itemsets, ~bazeros(n_attrs))
if intents[0] != smallest_intent:
    intents.insert(0, fbarray(smallest_intent))
return intents
```

`itemsets[0]` on an empty input and `intents[-1]` / `intents[0]` on an
empty intent list raise `IndexError`, modelled by `none`. -/
def list_intents_via_LCM {m : ℕ} (itemsets : List (Finset (Fin m)))
    (minSupp : ℤ) : Option (List (Finset (Fin m))) :=
  if itemsets.isEmpty then none
  else
    let thr : ℕ := (max minSupp 1).toNat
    let intents0 := topological_sorting (lcmClosedItemsets itemsets thr)
    let biggest : ℕ := (itemsets.filter (fun r => r = Finset.univ)).length
    let withTop : Option (List (Finset (Fin m))) :=
      if (biggest : ℤ) ≥ minSupp then
        match intents0.getLast? with
        | none => none
        | some lastI =>
          some (if lastI = Finset.univ then intents0 else intents0 ++ [Finset.univ])
      else some intents0
    match withTop with
    | none => none
    | some ints =>
      let smallest := itemsets.foldl (fun acc r => acc ∩ r) Finset.univ
      match ints.head? with
      | none => none
      | some h => some (if h = smallest then ints else smallest :: ints)

/-- C1: evaluation at the failing input.  On the two-object context
`{g1: {a,b}, g2: {b,c}}` with minimum support `0`, the code returns
`[{b}, {a,b}, {b,c}, {b}, {a,b,c}]`: because `order.topological_sorting`
sorts by **descending** popcount, the interior of the list is descending,
the bottom intent `{b}` occurs twice, and the result is not topologically
sorted ascending (the repository's own
`test_mine_equivalence_classes.test_list_intents_via_LCM` expects the
ascending `[{b}, {a,b}, {b,c}, {a,b,c}]`).  The subset intent `{b}` (at
index 3) also appears *after* its superset `{a,b}` (at index 1). -/
theorem list_intents_via_LCM_not_ascending :
    list_intents_via_LCM [({0, 1} : Finset (Fin 3)), {1, 2}] 0 =
      some [{1}, {0, 1}, {1, 2}, {1}, {0, 1, 2}] ∧
    cardsAscending [({1} : Finset (Fin 3)), {0, 1}, {1, 2}, {1}, {0, 1, 2}] = false ∧
    ¬ ([({1} : Finset (Fin 3)), {0, 1}, {1, 2}, {1}, {0, 1, 2}]).Nodup := by
  refine ⟨by decide, by decide, by decide⟩

/-- C10 counterexample: called with the invalid support `-1` on the
one-object context `[{a}]`, `list_intents_via_LCM` does *not* raise: the
negative support is clamped to `1` for the LCM call and the function
returns `[{a}]` normally, refuting "raises for every support `< 0`". -/
theorem list_intents_via_LCM_negative_support_returns :
    list_intents_via_LCM [({0} : Finset (Fin 1))] (-1) = some [{0}] := by decide

/-- C10 (amended): the intent enumerator fails fatally whenever the
minimum support is strictly above the number of objects (the LCM call
then finds no frequent closed itemset, and the subsequent `intents[-1]` /
`intents[0]` indexing raises `IndexError`); supports strictly below `0`
are *not* rejected. -/
theorem list_intents_via_LCM_fails_above_nobjs {m : ℕ}
    (itemsets : List (Finset (Fin m))) (minSupp : ℤ)
    (h : (itemsets.length : ℤ) < minSupp) :
    list_intents_via_LCM itemsets minSupp = none := by
  unfold list_intents_via_LCM
  by_cases hemp : itemsets.isEmpty
  · rw [if_pos hemp]
  · rw [if_neg hemp]
    have hlcm : lcmClosedItemsets itemsets ((max minSupp 1).toNat) = [] := by
      apply List.filter_eq_nil_iff.mpr
      intro C _
      simp only [decide_eq_true_eq, not_and, not_le]
      intro _ hsupp
      exfalso
      have hle : rowSupport itemsets C ≤ itemsets.length := List.length_filter_le _ _
      have : ((max minSupp 1).toNat : ℤ) = max minSupp 1 := by
        refine Int.toNat_of_nonneg ?_
        exact le_trans (by norm_num) (le_max_right _ _)
      omega
    have hbig : ¬ ((((itemsets.filter (fun r => r = Finset.univ)).length : ℕ) : ℤ) ≥ minSupp) := by
      have : (itemsets.filter (fun r => r = Finset.univ)).length ≤ itemsets.length :=
        List.length_filter_le _ _
      omega
    simp only [hlcm, topological_sorting, stableSort]
    rw [if_neg hbig]
    rfl

/-- Witness for `list_intents_via_LCM_fails_above_nobjs`. -/
theorem list_intents_via_LCM_fails_above_nobjs_witness :
    (([({0} : Finset (Fin 1))].length : ℤ) < 2 ∧
      list_intents_via_LCM [({0} : Finset (Fin 1))] 2 = none) :=
  ⟨by decide, list_intents_via_LCM_fails_above_nobjs [({0} : Finset (Fin 1))] 2 (by decide)⟩

/-! ## Proper premises (`implication_bases.py`)

`test_if_proper_premise_via_keys_ba(key, intent_idx, intents, keys_prevsize)`:

```python
intent = intents[intent_idx]
if key == intent: return False
if key.count() == 0: return True
cumulative_key = bitarray(key)
for m in key.itersearch(True):
    prekey = bitarray(key); prekey[m] = False
    cumulative_key |= intents[keys_prevsize[fbarray(prekey)]]
    if cumulative_key == intent: return False
return True
```

and `iter_proper_premises_via_keys` yields exactly the keys accepted by
this test (the generator inlines the same loop).  The key map (a Python
dict) is modelled as an association list in insertion order; `KeyError`
and `IndexError` are modelled by `none`.  `itersearch(True)` iterates
set bits in ascending order (`finsetAsc`). -/

/-- `intents[keys_prevsize[key \ {m}]]` with failed lookups defaulting to
`∅` (used only to state properties; the executable test models the raise
instead). -/
def lookedClosure (intents : List (Finset ℕ)) (km : List (Finset ℕ × ℕ))
    (key : Finset ℕ) (mIdx : ℕ) : Finset ℕ :=
  match List.lookup (key.erase mIdx) km with
  | some j => intents.getD j ∅
  | none => ∅

/-- The claim's cumulative union `A ∪ ⋃_{m ∈ A} closure(A \ {m})`, with
`closure(A \ {m})` looked up through the key map. -/
def properPremiseUnion (intents : List (Finset ℕ)) (km : List (Finset ℕ × ℕ))
    (key : Finset ℕ) : Finset ℕ :=
  key ∪ (finsetAsc key).foldl (fun acc mIdx => acc ∪ lookedClosure intents km key mIdx) ∅

/-- The accumulation loop of the proper-premise test, with its early
`return False` as soon as the running union hits the intent. -/
def ppTestGo (intents : List (Finset ℕ)) (km : List (Finset ℕ × ℕ))
    (key I : Finset ℕ) : Finset ℕ → List ℕ → Option Bool
  | _, [] => some true
  | cum, mIdx :: ms =>
    match List.lookup (key.erase mIdx) km with
    | none => none
    | some j =>
      match intents.get? j with
      | none => none
      | some J =>
        if cum ∪ J = I then some false
        else ppTestGo intents km key I (cum ∪ J) ms

/-- `test_if_proper_premise_via_keys_ba` from `implication_bases.py`. -/
def test_if_proper_premise_via_keys_ba (key : Finset ℕ) (intentIdx : ℕ)
    (intents : List (Finset ℕ)) (km : List (Finset ℕ × ℕ)) : Option Bool :=
  match intents.get? intentIdx with
  | none => none
  | some intent =>
    if key = intent then some false
    else if key.card = 0 then some true
    else ppTestGo intents km key intent key (finsetAsc key)

/-- The enumeration pass of `iter_proper_premises_via_keys`: walk the key
map in insertion order and keep the keys accepted by the test. -/
def ppIterAux (intents : List (Finset ℕ)) (km : List (Finset ℕ × ℕ)) :
    List (Finset ℕ × ℕ) → Option (List (Finset ℕ))
  | [] => some []
  | (key, idx) :: rest =>
    match test_if_proper_premise_via_keys_ba key idx intents km with
    | none => none
    | some b =>
      match ppIterAux intents km rest with
      | none => none
      | some l => some (if b then key :: l else l)

/-- `iter_proper_premises_via_keys` from `implication_bases.py`. -/
def iter_proper_premises_via_keys (intents : List (Finset ℕ))
    (km : List (Finset ℕ × ℕ)) : Option (List (Finset ℕ)) :=
  ppIterAux intents km km

/-- A key map is consistent with the intent list: every key maps to an
in-range intent containing it, and every one-element-removed subset of a
key is itself in the map with an intent contained in the key's intent.
Genuine key maps over the intent family of a context satisfy this.  The
predicate is stated in a decidable form. -/
def KeyMapConsistent (intents : List (Finset ℕ)) (km : List (Finset ℕ × ℕ)) : Prop :=
  ∀ p ∈ km, p.2 < intents.length ∧ p.1 ⊆ intents.getD p.2 ∅ ∧
    ∀ mIdx ∈ p.1, (List.lookup (p.1.erase mIdx) km).isSome ∧
      (List.lookup (p.1.erase mIdx) km).getD 0 < intents.length ∧
      intents.getD ((List.lookup (p.1.erase mIdx) km).getD 0) ∅ ⊆ intents.getD p.2 ∅

instance (intents : List (Finset ℕ)) (km : List (Finset ℕ × ℕ)) :
    Decidable (KeyMapConsistent intents km) :=
  inferInstanceAs (Decidable (∀ p ∈ km, p.2 < intents.length ∧
    p.1 ⊆ intents.getD p.2 ∅ ∧
    ∀ mIdx ∈ p.1, (List.lookup (p.1.erase mIdx) km).isSome ∧
      (List.lookup (p.1.erase mIdx) km).getD 0 < intents.length ∧
      intents.getD ((List.lookup (p.1.erase mIdx) km).getD 0) ∅ ⊆ intents.getD p.2 ∅))

lemma get?_eq_some_getD {α : Type} (l : List α) (n : ℕ) (d : α) (h : n < l.length) :
    l.get? n = some (l.getD n d) := by
  rw [List.getD_eq_getElem?_getD, List.get?_eq_getElem?]
  rcases List.getElem?_eq_some_iff.2 ⟨h, rfl⟩ with h'
  rw [h']
  rfl

lemma keyMapConsistent_entry (intents : List (Finset ℕ)) (km : List (Finset ℕ × ℕ))
    (hwf : KeyMapConsistent intents km) (p : Finset ℕ × ℕ) (hp : p ∈ km) :
    ∃ I, intents.get? p.2 = some I ∧ p.1 ⊆ I ∧
      ∀ mIdx ∈ p.1, ∃ j J, List.lookup (p.1.erase mIdx) km = some j ∧
        intents.get? j = some J ∧ J ⊆ I := by
  obtain ⟨hlt, hsub, hlk⟩ := hwf p hp
  refine ⟨intents.getD p.2 ∅, get?_eq_some_getD intents p.2 ∅ hlt, hsub, ?_⟩
  intro mIdx hm
  obtain ⟨hsome, hjlt, hJsub⟩ := hlk mIdx hm
  obtain ⟨j, hj⟩ := Option.isSome_iff_exists.1 hsome
  refine ⟨j, intents.getD j ∅, hj, ?_, ?_⟩
  · exact get?_eq_some_getD intents j ∅ (by rw [hj] at hjlt; exact hjlt)
  · rw [hj] at hJsub; exact hJsub

lemma foldl_union_init (g : ℕ → Finset ℕ) :
    ∀ (ms : List ℕ) (acc : Finset ℕ),
      ms.foldl (fun a m => a ∪ g m) acc = acc ∪ ms.foldl (fun a m => a ∪ g m) ∅
  | [], acc => by simp
  | m :: ms, acc => by
    simp only [List.foldl_cons]
    rw [foldl_union_init g ms (acc ∪ g m), foldl_union_init g ms (∅ ∪ g m)]
    simp [Finset.union_assoc]

lemma foldl_union_subset (g : ℕ → Finset ℕ) (I : Finset ℕ) :
    ∀ (ms : List ℕ) (acc : Finset ℕ), acc ⊆ I → (∀ m ∈ ms, g m ⊆ I) →
      ms.foldl (fun a m => a ∪ g m) acc ⊆ I
  | [], acc => fun h _ => by simpa using h
  | m :: ms, acc => by
    intro hacc hg
    simp only [List.foldl_cons]
    exact foldl_union_subset g I ms (acc ∪ g m)
      (Finset.union_subset hacc (hg m (List.mem_cons_self _ _)))
      (fun x hx => hg x (List.mem_cons_of_mem _ hx))

lemma ppTestGo_spec (intents : List (Finset ℕ)) (km : List (Finset ℕ × ℕ))
    (key I : Finset ℕ) :
    ∀ (ms : List ℕ) (cum : Finset ℕ),
      (∀ mIdx ∈ ms, ∃ j J, List.lookup (key.erase mIdx) km = some j ∧
        intents.get? j = some J ∧ J ⊆ I) →
      cum ⊆ I → cum ≠ I →
      ppTestGo intents km key I cum ms =
        some (decide (cum ∪ ms.foldl
          (fun acc mIdx => acc ∪ lookedClosure intents km key mIdx) ∅ ≠ I))
  | [], cum => by
    intro _ _ hne
    simp [ppTestGo, hne]
  | mIdx :: ms, cum => by
    intro hlk hcum hne
    obtain ⟨j, J, hj, hJ, hJI⟩ := hlk mIdx (List.mem_cons_self _ _)
    have hclos : lookedClosure intents km key mIdx = J := by
      simp [lookedClosure, hj, List.getD_eq_getElem?_getD, ← List.get?_eq_getElem?, hJ]
    simp only [ppTestGo, hj, hJ]
    have hrest : ∀ m ∈ ms, ∃ j J, List.lookup (key.erase m) km = some j ∧
        intents.get? j = some J ∧ J ⊆ I :=
      fun m hm => hlk m (List.mem_cons_of_mem _ hm)
    have hfold : ∀ acc : Finset ℕ,
        (mIdx :: ms).foldl (fun acc m => acc ∪ lookedClosure intents km key m) acc =
          (acc ∪ J) ∪ ms.foldl (fun acc m => acc ∪ lookedClosure intents km key m) ∅ := by
      intro acc
      simp only [List.foldl_cons, hclos]
      exact foldl_union_init _ ms (acc ∪ J)
    by_cases hJcum : cum ∪ J = I
    · rw [if_pos hJcum]
      have hsub : ∀ m ∈ ms, lookedClosure intents km key m ⊆ I := by
        intro m hm
        obtain ⟨j', J', hj', hJ', hJ'I⟩ := hrest m hm
        have : lookedClosure intents km key m = J' := by
          simp [lookedClosure, hj', List.getD_eq_getElem?_getD, ← List.get?_eq_getElem?, hJ']
        rw [this]; exact hJ'I
      have hbig : cum ∪ (mIdx :: ms).foldl
          (fun acc m => acc ∪ lookedClosure intents km key m) ∅ = I := by
        rw [hfold ∅]
        apply Finset.Subset.antisymm
        · refine Finset.union_subset hcum ?_
          refine Finset.union_subset ?_ ?_
          · exact Finset.union_subset (Finset.empty_subset _) hJI
          · exact foldl_union_subset _ I ms ∅ (Finset.empty_subset _) hsub
        · rw [← hJcum]
          intro x hx
          rcases Finset.mem_union.1 hx with hx | hx
          · exact Finset.mem_union_left _ hx
          · exact Finset.mem_union_right _ (by simp [Finset.mem_union, hx])
      simp only [List.foldl_cons, Finset.empty_union] at hbig ⊢
      simp [hbig]
    · rw [if_neg hJcum]
      have := ppTestGo_spec intents km key I ms (cum ∪ J) hrest
        (Finset.union_subset hcum hJI) hJcum
      rw [this]
      congr 2
      rw [hfold ∅]
      simp [Finset.union_assoc]

lemma test_pp_spec (intents : List (Finset ℕ)) (km : List (Finset ℕ × ℕ))
    (key : Finset ℕ) (idx : ℕ) (I : Finset ℕ)
    (hI : intents.get? idx = some I) (hkI : key ⊆ I)
    (hlk : ∀ mIdx ∈ key, ∃ j J, List.lookup (key.erase mIdx) km = some j ∧
      intents.get? j = some J ∧ J ⊆ I) :
    test_if_proper_premise_via_keys_ba key idx intents km =
      some (decide (key ≠ I ∧ properPremiseUnion intents km key ⊂ I)) := by
  simp only [test_if_proper_premise_via_keys_ba, hI]
  by_cases hkeq : key = I
  · simp [hkeq]
  · rw [if_neg hkeq]
    have hUsub : properPremiseUnion intents km key ⊆ I := by
      unfold properPremiseUnion
      refine Finset.union_subset hkI ?_
      refine foldl_union_subset _ I _ ∅ (Finset.empty_subset _) ?_
      intro m hm
      have hmk : m ∈ key := by
        have h' : m < key.sup id + 1 ∧ m ∈ key := by
          simpa [finsetAsc, List.mem_filter] using hm
        exact h'.2
      obtain ⟨j', J', hj', hJ', hJ'I⟩ := hlk m hmk
      have : lookedClosure intents km key m = J' := by
        simp [lookedClosure, hj', List.getD_eq_getElem?_getD, ← List.get?_eq_getElem?, hJ']
      rw [this]; exact hJ'I
    by_cases hk0 : key.card = 0
    · rw [if_pos hk0]
      have hkey : key = ∅ := Finset.card_eq_zero.1 hk0
      have hU : properPremiseUnion intents km key = ∅ := by
        subst hkey
        simp [properPremiseUnion, finsetAsc]
      have : properPremiseUnion intents km key ⊂ I := by
        rw [hU, Finset.ssubset_iff_subset_ne]
        refine ⟨Finset.empty_subset _, ?_⟩
        intro h
        exact hkeq (by rw [hkey, ← h])
      simp [hkeq, this]
    · rw [if_neg hk0]
      have hlk' : ∀ mIdx ∈ finsetAsc key, ∃ j J,
          List.lookup (key.erase mIdx) km = some j ∧
          intents.get? j = some J ∧ J ⊆ I := by
        intro m hm
        have h' : m < key.sup id + 1 ∧ m ∈ key := by
          simpa [finsetAsc, List.mem_filter] using hm
        exact hlk m h'.2
      rw [ppTestGo_spec intents km key I (finsetAsc key) key hlk' hkI hkeq]
      congr 1
      have : (key ∪ (finsetAsc key).foldl
          (fun acc mIdx => acc ∪ lookedClosure intents km key mIdx) ∅ ≠ I) ↔
          (key ≠ I ∧ properPremiseUnion intents km key ⊂ I) := by
        unfold properPremiseUnion
        constructor
        · intro hne
          exact ⟨hkeq, Finset.ssubset_iff_subset_ne.2 ⟨hUsub, hne⟩⟩
        · intro ⟨_, hss⟩
          exact (Finset.ssubset_iff_subset_ne.1 hss).2
      simp only [this]

lemma ppIterAux_spec (intents : List (Finset ℕ)) (km : List (Finset ℕ × ℕ))
    (hwf : KeyMapConsistent intents km) :
    ∀ (rest : List (Finset ℕ × ℕ)), (∀ p ∈ rest, p ∈ km) →
      ∃ L, ppIterAux intents km rest = some L ∧
        ∀ key, key ∈ L ↔ ∃ idx I, (key, idx) ∈ rest ∧ intents.get? idx = some I ∧
          key ≠ I ∧ properPremiseUnion intents km key ⊂ I
  | [] => fun _ => ⟨[], rfl, by simp⟩
  | (key, idx) :: rest => by
    intro hrest
    obtain ⟨I, hI, hkI, hlk⟩ := keyMapConsistent_entry intents km hwf (key, idx)
      (hrest _ (List.mem_cons_self _ _))
    have hI' : intents.get? idx = some I := hI
    have htest := test_pp_spec intents km key idx I hI' hkI hlk
    obtain ⟨L, hL, hLmem⟩ := ppIterAux_spec intents km hwf rest
      (fun p hp => hrest p (List.mem_cons_of_mem _ hp))
    refine ⟨if key ≠ I ∧ properPremiseUnion intents km key ⊂ I then key :: L else L, ?_, ?_⟩
    · simp only [ppIterAux, htest, hL]
      by_cases hcond : key ≠ I ∧ properPremiseUnion intents km key ⊂ I
      · simp [hcond]
      · simp [hcond]
    · intro k
      by_cases hcond : key ≠ I ∧ properPremiseUnion intents km key ⊂ I
      · rw [if_pos hcond]
        constructor
        · intro hk
          rcases List.mem_cons.1 hk with h | h
          · subst h
            exact ⟨idx, I, List.mem_cons_self _ _, hI', hcond.1, hcond.2⟩
          · obtain ⟨idx', I', hmem, h1, h2, h3⟩ := (hLmem k).1 h
            exact ⟨idx', I', List.mem_cons_of_mem _ hmem, h1, h2, h3⟩
        · intro ⟨idx', I', hmem, h1, h2, h3⟩
          rcases List.mem_cons.1 hmem with h | h
          · have hkk : k = key := congrArg Prod.fst h
            rw [hkk]
            exact List.mem_cons_self _ _
          · exact List.mem_cons_of_mem _ ((hLmem k).2 ⟨idx', I', h, h1, h2, h3⟩)
      · rw [if_neg hcond]
        constructor
        · intro hk
          obtain ⟨idx', I', hmem, h1, h2, h3⟩ := (hLmem k).1 hk
          exact ⟨idx', I', List.mem_cons_of_mem _ hmem, h1, h2, h3⟩
        · intro ⟨idx', I', hmem, h1, h2, h3⟩
          rcases List.mem_cons.1 hmem with h | h
          · exfalso
            have hkk : k = key := congrArg Prod.fst h
            have hii : idx' = idx := congrArg Prod.snd h
            rw [hii, hI'] at h1
            have hIe : I' = I := (Option.some.inj h1).symm
            exact hcond ⟨by rw [← hkk, ← hIe]; exact h2, by rw [← hkk, ← hIe]; exact h3⟩
          · exact (hLmem k).2 ⟨idx', I', h, h1, h2, h3⟩

/-- C8 (amended): over a key map that is consistent with the intent list
(every key contained in its in-range intent, every one-element-removed
subset of a key again in the map with a smaller-or-equal intent — as
holds for every genuine key map over the intent family of a context), the
enumerator emits exactly the keys `A` with `I = intents[key_map[A]]` such
that `A ≠ I` and `A ∪ ⋃_{m ∈ A} intents[key_map[A \ {m}]] ⊊ I`; in
particular no closed key is emitted.  (The original claim ranged over
arbitrary key maps on topologically sorted intent lists; on those the
emitted keys need not satisfy the strict inclusion.) -/
theorem iter_proper_premises_via_keys_spec (intents : List (Finset ℕ))
    (km : List (Finset ℕ × ℕ)) (hwf : KeyMapConsistent intents km) :
    ∃ L, iter_proper_premises_via_keys intents km = some L ∧
      ∀ key, key ∈ L ↔ ∃ idx I, (key, idx) ∈ km ∧ intents.get? idx = some I ∧
        key ≠ I ∧ properPremiseUnion intents km key ⊂ I :=
  ppIterAux_spec intents km hwf km (fun _ hp => hp)

/-- Witness for `iter_proper_premises_via_keys_spec` on the key map of the
context `{g1: {a,b}, g2: {b,c}}`. -/
theorem iter_proper_premises_via_keys_spec_witness :
    ∃ L, iter_proper_premises_via_keys
        [({1} : Finset ℕ), {0, 1}, {1, 2}, {0, 1, 2}]
        [(∅, 0), ({0}, 1), ({2}, 2), ({0, 2}, 3)] = some L ∧
      ∀ key, key ∈ L ↔ ∃ idx I,
        (key, idx) ∈ [((∅ : Finset ℕ), 0), ({0}, 1), ({2}, 2), ({0, 2}, 3)] ∧
        ([({1} : Finset ℕ), {0, 1}, {1, 2}, {0, 1, 2}]).get? idx = some I ∧
        key ≠ I ∧ properPremiseUnion [({1} : Finset ℕ), {0, 1}, {1, 2}, {0, 1, 2}]
          [(∅, 0), ({0}, 1), ({2}, 2), ({0, 2}, 3)] key ⊂ I :=
  iter_proper_premises_via_keys_spec
    [({1} : Finset ℕ), {0, 1}, {1, 2}, {0, 1, 2}]
    [(∅, 0), ({0}, 1), ({2}, 2), ({0, 2}, 3)] (by decide)

/-- C8 counterexample: `intents = [{b}, {a,c}]` is topologically sorted
ascending and `key_map = {∅: 0, {a}: 1, {c}: 1}` is exactly what
`list_keys` produces on it (the first intent containing `{a}` and `{c}`
is `{a,c}`), yet the enumerator emits `{a}` although
`{a} ∪ closure(∅) = {a,b}` is *not* strictly below `closure({a}) =
{a,c}` — it is not even a subset — refuting the claimed emission
condition `A ∪ ⋃_m closure(A∖{m}) ⊊ closure(A)` for arbitrary
topologically sorted intent lists. -/
theorem iter_proper_premises_counterexample :
    iter_proper_premises_via_keys [({1} : Finset ℕ), {0, 2}]
        [(∅, 0), ({0}, 1), ({2}, 1)] = some [∅, {0}, {2}] ∧
    properPremiseUnion [({1} : Finset ℕ), {0, 2}]
        [(∅, 0), ({0}, 1), ({2}, 1)] {0} = {0, 1} ∧
    ¬ (({0, 1} : Finset ℕ) ⊂ {0, 2}) := by
  refine ⟨by decide, by decide, by decide⟩

/-! ## `list_stable_extents_via_gsofia` (`mine_equivalence_classes.py`)

State: the dict `extent → (delta, children)`, modelled as an association
list in insertion order with Python's insert-or-overwrite semantics
(overwriting keeps the original position).  Children are a Python `set`
of extents, modelled as a `Finset`; the imperative maximal-children
filter (sort by descending count, drop a child contained in an earlier
kept one) keeps exactly the `⊆`-maximal projected children regardless of
iteration order, and is modelled by that canonical filter.  The
delta/support parameters are taken as naturals (`to_absolute_number` is
the identity on ints); the number of objects is the explicit `n_objects`
parameter of the source. -/

/-- One dict entry: `extent → (delta, children)`. -/
abbrev GEntry : Type := Finset ℕ × ℕ × Finset (Finset ℕ)

/-- Python `dict[key] = value`: overwrite in place or append. -/
def entryInsert (l : List GEntry) (key : Finset ℕ) (v : ℕ × Finset (Finset ℕ)) :
    List GEntry :=
  if l.any (fun e => e.1 = key) then
    l.map (fun e => if e.1 = key then (key, v) else e)
  else l ++ [(key, v)]

/-- Re-insertion of a cut parent `X` with its updated delta
`min(δ, |X|−|X∩A|)` and the new child `X∩A`, guarded by the threshold. -/
def keptParent (minDelta : ℕ) (A : Finset ℕ) (st : List GEntry) (e : GEntry) :
    List GEntry :=
  if minDelta ≤ min e.2.1 (e.1.card - (e.1 ∩ A).card) then
    entryInsert st e.1
      (min e.2.1 (e.1.card - (e.1 ∩ A).card), insert (e.1 ∩ A) e.2.2)
  else st

/-- `delta_new`: `min(|X∩A|, min_c |X∩A| − |c∩A|)`. -/
def childDelta (A : Finset ℕ) (e : GEntry) : ℕ :=
  e.2.2.fold min (e.1 ∩ A).card (fun c => (e.1 ∩ A).card - (c ∩ A).card)

/-- The `⊆`-maximal projected children (the canonical result of the
imperative sort-and-drop filter). -/
def maxChildren (A : Finset ℕ) (e : GEntry) : Finset (Finset ℕ) :=
  (e.2.2.image (fun c => c ∩ A)).filter
    (fun c => ¬ ∃ d ∈ e.2.2.image (fun c => c ∩ A), c ⊂ d)

/-- Processing of one old entry `(X, δ, C)` against the attribute extent
`A` inside the per-attribute loop of `list_stable_extents_via_gsofia`,
accumulating into the new dict `st`. -/
def processEntry (minDelta minSupp : ℕ) (A : Finset ℕ) (st : List GEntry)
    (e : GEntry) : List GEntry :=
  if e.1 ∩ A = e.1 then entryInsert st e.1 (e.2.1, e.2.2)
  else if (e.1 ∩ A).card < minSupp then keptParent minDelta A st e
  else if childDelta A e < minDelta then keptParent minDelta A st e
  else entryInsert (keptParent minDelta A st e) (e.1 ∩ A)
    (childDelta A e, maxChildren A e)

/-- The cap step run after each attribute when the dict holds more than
`n` entries: `thold` is the `n`-th largest delta; all entries strictly
above it are kept, and the entries lying exactly at `thold` are kept only
when together with the strictly-above ones they number exactly `n`
(otherwise they are all dropped, leaving fewer than `n`).  This is the
order-independent result of the `heapq.nlargest`/`n_border_stable` code.
`heapq.nlargest(0, ...)` makes `most_stable_extents[-1]` raise, modelled
by requiring the caller to pass `0 < n` (`none` otherwise). -/
def capThold (st : List GEntry) (n : ℕ) : ℕ :=
  (stableSort (fun a b => decide (b ≤ a)) (st.map (fun e => e.2.1))).getD (n - 1) 0

def capFilter (st : List GEntry) (n : ℕ) : List GEntry :=
  if (st.filter (fun e => capThold st n < e.2.1)).length +
      (st.filter (fun e => e.2.1 = capThold st n)).length = n then
    st.filter (fun e => capThold st n < e.2.1) ++
      st.filter (fun e => e.2.1 = capThold st n)
  else st.filter (fun e => capThold st n < e.2.1)

/-- One whole attribute projection (`ExtendProjection` plus the cap). -/
def gsofiaStep (minDelta minSupp : ℕ) (nStable : Option ℕ) (st : List GEntry)
    (A : Finset ℕ) : Option (List GEntry) :=
  match nStable with
  | none => some (st.foldl (processEntry minDelta minSupp A) [])
  | some n =>
    if n < (st.foldl (processEntry minDelta minSupp A) []).length then
      if n = 0 then none
      else some (capFilter (st.foldl (processEntry minDelta minSupp A) []) n)
    else some (st.foldl (processEntry minDelta minSupp A) [])

/-- The attribute loop. -/
def gsofiaRun (minDelta minSupp : ℕ) (nStable : Option ℕ) :
    List (Finset ℕ) → List GEntry → Option (List GEntry)
  | [], st => some st
  | A :: rest, st =>
    match gsofiaStep minDelta minSupp nStable st A with
    | none => none
    | some st' => gsofiaRun minDelta minSupp nStable rest st'

/-- `list_stable_extents_via_gsofia(attribute_extents, n_objects,
min_delta_stability, n_stable_extents, min_supp)` from
`mine_equivalence_classes.py`; returns the set of surviving extents. -/
def list_stable_extents_via_gsofia (nObjects : ℕ) (attrExtents : List (Finset ℕ))
    (minDelta : ℕ) (nStable : Option ℕ) (minSupp : ℕ) :
    Option (Finset (Finset ℕ)) :=
  match gsofiaRun minDelta minSupp nStable attrExtents
      [(Finset.range nObjects, nObjects, ∅)] with
  | none => none
  | some st => some (st.map (fun e => e.1)).toFinset

/-- The claim's delta-stability of an extent `X` w.r.t. the attribute
extents: `|X|` minus the size of the largest strict sub-extent obtained
by intersecting `X` with one attribute extent (`|X|` itself when no
attribute extent cuts `X`). -/
def deltaStab (X : Finset ℕ) (attrs : List (Finset ℕ)) : ℕ :=
  X.card - ((attrs.filter (fun A => X ∩ A ⊂ X)).map (fun A => (X ∩ A).card)).foldr max 0

/-- Soundness invariant of a dict entry `(X, δ, C)` after the attribute
extents in `processed` have been projected: the recorded delta is at
least the requested threshold and at most `|X|`, children are
sub-extents of `X`, and every one-attribute strict cut of `X` by a
processed attribute is dominated by a recorded child that already
accounts for it in `δ`. -/
def GInv (minDelta : ℕ) (processed : List (Finset ℕ)) (e : GEntry) : Prop :=
  minDelta ≤ e.2.1 ∧ e.2.1 ≤ e.1.card ∧ (∀ c ∈ e.2.2, c ⊆ e.1) ∧
  ∀ A ∈ processed, e.1 ∩ A ⊂ e.1 →
    ∃ c ∈ e.2.2, e.1 ∩ A ⊆ c ∧ e.2.1 ≤ e.1.card - c.card

lemma entryInsert_mem (l : List GEntry) (key : Finset ℕ) (v : ℕ × Finset (Finset ℕ)) :
    ∀ e' ∈ entryInsert l key v, e' = (key, v) ∨ e' ∈ l := by
  intro e' he'
  unfold entryInsert at he'
  split at he'
  · obtain ⟨e, he, heq⟩ := List.mem_map.1 he'
    by_cases h : e.1 = key
    · rw [if_pos h] at heq
      exact Or.inl heq.symm
    · rw [if_neg h] at heq
      exact Or.inr (heq ▸ he)
  · rcases List.mem_append.1 he' with h | h
    · exact Or.inr h
    · exact Or.inl (by simpa using h)

lemma exists_maximal_superset (s : Finset (Finset ℕ)) (x : Finset ℕ) (hx : x ∈ s) :
    ∃ y ∈ s.filter (fun c => ¬ ∃ d ∈ s, c ⊂ d), x ⊆ y := by
  obtain ⟨m, hm, hmax⟩ := Finset.exists_maximal (s.filter (fun c => x ⊆ c))
    ⟨x, Finset.mem_filter.2 ⟨hx, Finset.Subset.refl x⟩⟩
  have hms : m ∈ s := (Finset.mem_filter.1 hm).1
  have hxm : x ⊆ m := (Finset.mem_filter.1 hm).2
  refine ⟨m, Finset.mem_filter.2 ⟨hms, ?_⟩, hxm⟩
  simp only [not_exists, not_and]
  intro d hd hsub
  exact hmax d (Finset.mem_filter.2 ⟨hd, hxm.trans hsub.subset⟩) hsub

lemma foldr_max_le (l : List ℕ) (B : ℕ) (h : ∀ x ∈ l, x ≤ B) :
    l.foldr max 0 ≤ B := by
  induction l with
  | nil => simp
  | cons x xs ih =>
    simp only [List.foldr_cons, max_le_iff]
    exact ⟨h x (List.mem_cons_self _ _),
      ih (fun y hy => h y (List.mem_cons_of_mem _ hy))⟩

lemma keptParent_inv (minDelta : ℕ) (A : Finset ℕ)
    (processed : List (Finset ℕ)) (st : List GEntry) (e : GEntry)
    (hst : ∀ e' ∈ st, GInv minDelta (processed ++ [A]) e')
    (he : GInv minDelta processed e) :
    ∀ e' ∈ keptParent minDelta A st e, GInv minDelta (processed ++ [A]) e' := by
  obtain ⟨hδΔ, hδc, hCsub, hwit⟩ := he
  intro e' he'
  unfold keptParent at he'
  split at he'
  · rename_i hδp
    rcases entryInsert_mem _ _ _ e' he' with h | h
    · subst h
      refine ⟨hδp, le_trans (min_le_left _ _) hδc, ?_, ?_⟩
      · show ∀ c ∈ insert (e.1 ∩ A) e.2.2, c ⊆ e.1
        intro c hc
        rcases Finset.mem_insert.1 hc with h | h
        · rw [h]; exact Finset.inter_subset_left
        · exact hCsub c h
      · show ∀ A' ∈ processed ++ [A], e.1 ∩ A' ⊂ e.1 →
          ∃ c ∈ insert (e.1 ∩ A) e.2.2, e.1 ∩ A' ⊆ c ∧
            min e.2.1 (e.1.card - (e.1 ∩ A).card) ≤ e.1.card - c.card
        intro A' hA' hcut
        rcases List.mem_append.1 hA' with h | h
        · obtain ⟨c, hc, hsub, hbound⟩ := hwit A' h hcut
          exact ⟨c, Finset.mem_insert_of_mem hc, hsub,
            le_trans (min_le_left _ _) hbound⟩
        · have hAA : A' = A := by simpa using h
          subst hAA
          exact ⟨e.1 ∩ A', Finset.mem_insert_self _ _, Finset.Subset.refl _,
            min_le_right _ _⟩
    · exact hst e' h
  · exact hst e' he'

lemma processEntry_inv (minDelta minSupp : ℕ) (A : Finset ℕ)
    (processed : List (Finset ℕ)) (st : List GEntry) (e : GEntry)
    (hst : ∀ e' ∈ st, GInv minDelta (processed ++ [A]) e')
    (he : GInv minDelta processed e) :
    ∀ e' ∈ processEntry minDelta minSupp A st e,
      GInv minDelta (processed ++ [A]) e' := by
  intro e' he'
  unfold processEntry at he'
  split at he'
  · rename_i hXX
    obtain ⟨hδΔ, hδc, hCsub, hwit⟩ := he
    rcases entryInsert_mem _ _ _ e' he' with h | h
    · subst h
      refine ⟨hδΔ, hδc, hCsub, ?_⟩
      show ∀ A' ∈ processed ++ [A], e.1 ∩ A' ⊂ e.1 →
        ∃ c ∈ e.2.2, e.1 ∩ A' ⊆ c ∧ e.2.1 ≤ e.1.card - c.card
      intro A' hA' hcut
      rcases List.mem_append.1 hA' with h | h
      · exact hwit A' h hcut
      · have hAA : A' = A := by simpa using h
        subst hAA
        rw [hXX] at hcut
        exact absurd hcut (ssubset_irrefl _)
    · exact hst e' h
  · split at he'
    · exact keptParent_inv minDelta A processed st e hst he e' he'
    · split at he'
      · exact keptParent_inv minDelta A processed st e hst he e' he'
      · rename_i hXX hsupp hδn
        rcases entryInsert_mem _ _ _ e' he' with h | h
        · subst h
          obtain ⟨hδΔ, hδc, hCsub, hwit⟩ := he
          refine ⟨not_lt.1 hδn, ?_, ?_, ?_⟩
          · show childDelta A e ≤ (e.1 ∩ A).card
            unfold childDelta
            exact (Finset.fold_min_le _).2 (Or.inl (le_refl _))
          · show ∀ c ∈ maxChildren A e, c ⊆ e.1 ∩ A
            intro c hc
            obtain ⟨c₀, hc₀, hc₀e⟩ :=
              Finset.mem_image.1 (Finset.mem_filter.1 hc).1
            rw [← hc₀e]
            exact Finset.inter_subset_inter (hCsub c₀ hc₀) (Finset.Subset.refl A)
          · show ∀ A' ∈ processed ++ [A], (e.1 ∩ A) ∩ A' ⊂ e.1 ∩ A →
              ∃ c ∈ maxChildren A e, (e.1 ∩ A) ∩ A' ⊆ c ∧
                childDelta A e ≤ (e.1 ∩ A).card - c.card
            intro A' hA' hcut
            rcases List.mem_append.1 hA' with hmem | hmem
            · have hXA' : e.1 ∩ A' ⊂ e.1 := by
                refine Finset.ssubset_iff_subset_ne.2 ⟨Finset.inter_subset_left, ?_⟩
                intro hXeq
                have h1 : e.1 ⊆ A' := by
                  conv_lhs => rw [← hXeq]
                  exact Finset.inter_subset_right
                have h2 : e.1 ∩ A ∩ A' = e.1 ∩ A :=
                  Finset.inter_eq_left.2 (Finset.inter_subset_left.trans h1)
                rw [h2] at hcut
                exact absurd hcut (ssubset_irrefl _)
              obtain ⟨c, hc, hsub, _⟩ := hwit A' hmem hXA'
              have hcpA : c ∩ A ∈ e.2.2.image (fun c => c ∩ A) :=
                Finset.mem_image_of_mem _ hc
              obtain ⟨y, hy, hcy⟩ := exists_maximal_superset _ (c ∩ A) hcpA
              refine ⟨y, hy, ?_, ?_⟩
              · refine Finset.Subset.trans ?_ hcy
                intro x hx
                simp only [Finset.mem_inter] at hx ⊢
                exact ⟨hsub (Finset.mem_inter.2 ⟨hx.1.1, hx.2⟩), hx.1.2⟩
              · obtain ⟨c₁, hc₁, hc₁y⟩ :=
                  Finset.mem_image.1 (Finset.mem_filter.1 hy).1
                unfold childDelta
                refine (Finset.fold_min_le _).2 (Or.inr ⟨c₁, hc₁, ?_⟩)
                rw [hc₁y]
            · have hAA : A' = A := by simpa using hmem
              subst hAA
              rw [Finset.inter_assoc, Finset.inter_self] at hcut
              exact absurd hcut (ssubset_irrefl _)
        · exact keptParent_inv minDelta A processed st e hst he e' h

lemma foldl_processEntry_inv (minDelta minSupp : ℕ) (A : Finset ℕ)
    (processed : List (Finset ℕ)) :
    ∀ (olds : List GEntry) (acc : List GEntry),
      (∀ e ∈ olds, GInv minDelta processed e) →
      (∀ e ∈ acc, GInv minDelta (processed ++ [A]) e) →
      ∀ e' ∈ olds.foldl (processEntry minDelta minSupp A) acc,
        GInv minDelta (processed ++ [A]) e'
  | [], acc => fun _ hacc e' he' => hacc e' he'
  | e :: olds, acc => by
    intro holds hacc e' he'
    refine foldl_processEntry_inv minDelta minSupp A processed olds
      (processEntry minDelta minSupp A acc e)
      (fun x hx => holds x (List.mem_cons_of_mem _ hx))
      (processEntry_inv minDelta minSupp A processed acc e hacc
        (holds e (List.mem_cons_self _ _)))
      e' he'

lemma capFilter_subset (st : List GEntry) (n : ℕ) :
    ∀ e ∈ capFilter st n, e ∈ st := by
  intro e he
  unfold capFilter at he
  split at he
  · rcases List.mem_append.1 he with h | h
    · exact List.mem_filter.1 h |>.1
    · exact List.mem_filter.1 h |>.1
  · exact List.mem_filter.1 he |>.1

lemma gsofiaStep_inv (minDelta minSupp : ℕ) (nStable : Option ℕ) (A : Finset ℕ)
    (processed : List (Finset ℕ)) (st : List GEntry)
    (hst : ∀ e ∈ st, GInv minDelta processed e)
    (st' : List GEntry) (hstep : gsofiaStep minDelta minSupp nStable st A = some st') :
    ∀ e ∈ st', GInv minDelta (processed ++ [A]) e := by
  have hfold := foldl_processEntry_inv minDelta minSupp A processed st [] hst
    (by intro e he; exact absurd he (List.not_mem_nil e))
  unfold gsofiaStep at hstep
  match nStable with
  | none =>
    simp only [Option.some_inj] at hstep
    subst hstep
    exact hfold
  | some n =>
    simp only at hstep
    split at hstep
    · split at hstep
      · exact absurd hstep (by simp)
      · simp only [Option.some_inj] at hstep
        subst hstep
        intro e he
        exact hfold e (capFilter_subset _ n e he)
    · simp only [Option.some_inj] at hstep
      subst hstep
      exact hfold

lemma gsofiaRun_inv (minDelta minSupp : ℕ) (nStable : Option ℕ) :
    ∀ (attrsLeft : List (Finset ℕ)) (processed : List (Finset ℕ)) (st : List GEntry),
      (∀ e ∈ st, GInv minDelta processed e) →
      ∀ final, gsofiaRun minDelta minSupp nStable attrsLeft st = some final →
      ∀ e ∈ final, GInv minDelta (processed ++ attrsLeft) e
  | [], processed, st => by
    intro hst final hrun
    simp only [gsofiaRun, Option.some_inj] at hrun
    subst hrun
    simpa using hst
  | A :: rest, processed, st => by
    intro hst final hrun
    simp only [gsofiaRun] at hrun
    match hstep : gsofiaStep minDelta minSupp nStable st A with
    | none => rw [hstep] at hrun; exact absurd hrun (by simp)
    | some st' =>
      rw [hstep] at hrun
      have hst' := gsofiaStep_inv minDelta minSupp nStable A processed st hst st' hstep
      have := gsofiaRun_inv minDelta minSupp nStable rest (processed ++ [A]) st' hst'
        final hrun
      simpa [List.append_assoc] using this

lemma inv_implies_deltaStab (minDelta : ℕ) (attrs : List (Finset ℕ)) (e : GEntry)
    (hInv : GInv minDelta attrs e) : minDelta ≤ deltaStab e.1 attrs := by
  obtain ⟨hδΔ, hδc, hCsub, hwit⟩ := hInv
  unfold deltaStab
  have hM : ((attrs.filter (fun A => e.1 ∩ A ⊂ e.1)).map
      (fun A => (e.1 ∩ A).card)).foldr max 0 ≤ e.1.card - e.2.1 := by
    apply foldr_max_le
    intro v hv
    obtain ⟨A, hA, hAv⟩ := List.mem_map.1 hv
    have hAmem : A ∈ attrs := (List.mem_filter.1 hA).1
    have hAcut : e.1 ∩ A ⊂ e.1 := by
      have := (List.mem_filter.1 hA).2
      simpa using this
    obtain ⟨c, hc, hsub, hbound⟩ := hwit A hAmem hAcut
    have h1 : (e.1 ∩ A).card ≤ c.card := Finset.card_le_card hsub
    have h2 : c.card ≤ e.1.card := Finset.card_le_card (hCsub c hc)
    omega
  omega

/-- C6 (amended): for every `Δ ≤ |O|` (and any cap and support), every
extent returned by `list_stable_extents_via_gsofia` has delta-stability
at least `Δ`.  (For `Δ > |O|` the claim fails: the top extent survives
untouched with its initial delta `|O|` whenever no attribute cuts it.) -/
theorem gsofia_delta_stability_bound (nObjects : ℕ) (attrs : List (Finset ℕ))
    (minDelta : ℕ) (nStable : Option ℕ) (minSupp : ℕ)
    (hΔ : minDelta ≤ nObjects) (S : Finset (Finset ℕ))
    (hS : list_stable_extents_via_gsofia nObjects attrs minDelta nStable minSupp =
      some S) :
    ∀ X ∈ S, minDelta ≤ deltaStab X attrs := by
  intro X hX
  unfold list_stable_extents_via_gsofia at hS
  match hrun : gsofiaRun minDelta minSupp nStable attrs
      [(Finset.range nObjects, nObjects, ∅)] with
  | none => rw [hrun] at hS; exact absurd hS (by simp)
  | some st =>
    rw [hrun] at hS
    simp only [Option.some_inj] at hS
    subst hS
    have hinit : ∀ e ∈ [((Finset.range nObjects : Finset ℕ), nObjects,
        (∅ : Finset (Finset ℕ)))], GInv minDelta [] e := by
      intro e he
      simp only [List.mem_singleton] at he
      subst he
      refine ⟨hΔ, by simp, by simp, by simp⟩
    have hfin := gsofiaRun_inv minDelta minSupp nStable attrs [] _ hinit st hrun
    simp only [List.nil_append] at hfin
    rw [List.mem_toFinset] at hX
    obtain ⟨e, he, heX⟩ := List.mem_map.1 hX
    subst heX
    exact inv_implies_deltaStab minDelta attrs e (hfin e he)

/-- Witness for `gsofia_delta_stability_bound`: on one object with the
single full attribute extent and `Δ = 1`, the returned extent `{0}` has
delta-stability `≥ 1`. -/
theorem gsofia_delta_stability_bound_witness : (1 : ℕ) ≤ deltaStab {0} [{0}] :=
  gsofia_delta_stability_bound 1 [{0}] 1 none 0 (by decide) {{0}} (by decide)
    {0} (by decide)

/-- C6 counterexample: with `Δ = 2` on a one-object context whose single
attribute extent is full, the top extent is carried through untouched
(no Δ check ever fires) and is returned although its delta-stability is
`1 < 2`; so the claim fails for thresholds above `|O|`. -/
theorem gsofia_delta_counterexample :
    list_stable_extents_via_gsofia 1 [{0}] 2 none 0 = some {{0}} ∧
    deltaStab {0} [{0}] = 1 ∧ ¬ (2 ≤ deltaStab {0} [{0}]) :=
  ⟨by decide, by decide, by decide⟩

/-! ### The `n_stable_extents` cap (C7) -/

lemma mem_insertSorted {α : Type} (le : α → α → Bool) (x z : α) :
    ∀ l, z ∈ insertSorted le x l ↔ z = x ∨ z ∈ l
  | [] => by simp [insertSorted]
  | y :: ys => by
    simp only [insertSorted]
    split
    · rw [List.mem_cons, mem_insertSorted le x z ys, List.mem_cons]
      tauto
    · exact List.mem_cons

lemma insertSorted_perm {α : Type} (le : α → α → Bool) (x : α) :
    ∀ l, List.Perm (insertSorted le x l) (x :: l)
  | [] => List.Perm.refl _
  | y :: ys => by
    simp only [insertSorted]
    split
    · exact ((insertSorted_perm le x ys).cons y).trans (List.Perm.swap x y ys)
    · exact List.Perm.refl _

lemma stableSort_perm {α : Type} (le : α → α → Bool) :
    ∀ l, List.Perm (stableSort le l) l
  | [] => List.Perm.refl _
  | x :: xs =>
    (insertSorted_perm le x (stableSort le xs)).trans ((stableSort_perm le xs).cons x)

lemma insertSorted_pairwise_ge (x : ℕ) :
    ∀ l, List.Pairwise (fun a b : ℕ => b ≤ a) l →
      List.Pairwise (fun a b : ℕ => b ≤ a)
        (insertSorted (fun a b => decide (b ≤ a)) x l)
  | [] => by simp [insertSorted]
  | y :: ys => by
    intro hp
    rcases List.pairwise_cons.1 hp with ⟨hy, hys⟩
    simp only [insertSorted]
    split
    · rename_i hle
      have hxy : x ≤ y := of_decide_eq_true hle
      refine List.pairwise_cons.2 ⟨?_, insertSorted_pairwise_ge x ys hys⟩
      intro b hb
      rcases (mem_insertSorted _ x b ys).1 hb with h | h
      · subst h; exact hxy
      · exact hy b h
    · rename_i hle
      have hyx : y ≤ x := le_of_not_le (by simpa using hle)
      refine List.pairwise_cons.2 ⟨?_, hp⟩
      intro b hb
      rcases List.mem_cons.1 hb with h | h
      · subst h; exact hyx
      · exact le_trans (hy b h) hyx

lemma stableSort_pairwise_ge :
    ∀ l, List.Pairwise (fun a b : ℕ => b ≤ a)
      (stableSort (fun a b : ℕ => decide (b ≤ a)) l)
  | [] => List.Pairwise.nil
  | x :: xs => insertSorted_pairwise_ge x _ (stableSort_pairwise_ge xs)

lemma countP_gt_getD_le :
    ∀ (sd : List ℕ), List.Pairwise (fun a b : ℕ => b ≤ a) sd →
      ∀ k, k < sd.length → sd.countP (fun d => decide (sd.getD k 0 < d)) ≤ k
  | [] => by simp
  | x :: rest => by
    intro hp k hk
    rcases List.pairwise_cons.1 hp with ⟨hx, hrest⟩
    cases k with
    | zero =>
      simp only [List.getD_cons_zero]
      rw [List.countP_cons]
      have hz : rest.countP (fun d => decide (x < d)) = 0 :=
        List.countP_eq_zero.2 (fun a ha => by simpa using not_lt.2 (hx a ha))
      simp [hz]
    | succ k =>
      simp only [List.getD_cons_succ]
      rw [List.countP_cons]
      have hih := countP_gt_getD_le rest hrest k (by simpa using hk)
      split <;> omega

lemma capFilter_length (st : List GEntry) (n : ℕ) (hlen : n < st.length) :
    (capFilter st n).length ≤ n := by
  unfold capFilter
  split
  · rename_i heq
    rw [List.length_append]
    omega
  · have habove :
        (st.filter (fun e => decide (capThold st n < e.2.1))).length ≤ n - 1 := by
      rw [← List.countP_eq_length_filter]
      have h1 : st.countP (fun e => decide (capThold st n < e.2.1)) =
          (st.map (fun e => e.2.1)).countP (fun d => decide (capThold st n < d)) := by
        rw [List.countP_map]
        rfl
      have hperm : List.Perm (stableSort (fun a b : ℕ => decide (b ≤ a))
          (st.map (fun e => e.2.1))) (st.map (fun e => e.2.1)) :=
        stableSort_perm _ _
      rw [h1, ← hperm.countP_eq]
      have hsorted := stableSort_pairwise_ge (st.map (fun e => e.2.1))
      have hklen : n - 1 < (stableSort (fun a b : ℕ => decide (b ≤ a))
          (st.map (fun e => e.2.1))).length := by
        rw [hperm.length_eq, List.length_map]
        omega
      exact countP_gt_getD_le _ hsorted (n - 1) hklen
    omega

lemma gsofiaRun_length_le (minDelta minSupp : ℕ) (n : ℕ) :
    ∀ (attrsLeft : List (Finset ℕ)) (st : List GEntry), st.length ≤ n →
      ∀ final, gsofiaRun minDelta minSupp (some n) attrsLeft st = some final →
      final.length ≤ n
  | [], st => by
    intro h final hrun
    simp only [gsofiaRun, Option.some_inj] at hrun
    subst hrun
    exact h
  | A :: rest, st => by
    intro h final hrun
    simp only [gsofiaRun] at hrun
    match hstep : gsofiaStep minDelta minSupp (some n) st A with
    | none => rw [hstep] at hrun; exact absurd hrun (by simp)
    | some st' =>
      rw [hstep] at hrun
      have hst' : st'.length ≤ n := by
        unfold gsofiaStep at hstep
        simp only at hstep
        split at hstep
        · split at hstep
          · exact absurd hstep (by simp)
          · rename_i hgt _
            simp only [Option.some_inj] at hstep
            subst hstep
            exact capFilter_length _ n hgt
        · rename_i hle
          simp only [Option.some_inj] at hstep
          subst hstep
          omega
      exact gsofiaRun_length_le minDelta minSupp n rest st' hst' final hrun

/-- C7 (amended): with the cap `N` set (a positive integer, per spec), the
returned set never holds more than `N` extents; and the per-attribute cap
step keeps a *delta-upward-closed* subset of the candidate entries of
size at most `N`: every entry with delta strictly above the `N`-th
largest delta is kept, and whenever any entry is kept, so is every entry
with a strictly larger delta.  (Contrary to the original claim, the
entries whose delta equals the threshold are *not* dropped "only as far
as needed": when they do not all fit within `N` they are all dropped, so
fewer than `N` entries may remain.) -/
theorem gsofia_cap_spec :
    (∀ (nObjects : ℕ) (attrs : List (Finset ℕ)) (minDelta n minSupp : ℕ),
      0 < n → ∀ S,
        list_stable_extents_via_gsofia nObjects attrs minDelta (some n) minSupp =
          some S → S.card ≤ n) ∧
    (∀ (st : List GEntry) (n : ℕ), n < st.length →
      (capFilter st n).length ≤ n ∧
      (∀ e ∈ capFilter st n, e ∈ st) ∧
      (∀ e ∈ st, ∀ e' ∈ capFilter st n, e'.2.1 < e.2.1 → e ∈ capFilter st n)) := by
  constructor
  · intro nObjects attrs minDelta n minSupp hn S hS
    unfold list_stable_extents_via_gsofia at hS
    match hrun : gsofiaRun minDelta minSupp (some n) attrs
        [(Finset.range nObjects, nObjects, ∅)] with
    | none => rw [hrun] at hS; exact absurd hS (by simp)
    | some st =>
      rw [hrun] at hS
      simp only [Option.some_inj] at hS
      subst hS
      have hlen : st.length ≤ n :=
        gsofiaRun_length_le minDelta minSupp n attrs _ (by simpa using hn) st hrun
      calc (st.map (fun e => e.1)).toFinset.card
          ≤ (st.map (fun e => e.1)).length := List.toFinset_card_le _
        _ = st.length := List.length_map _ _
        _ ≤ n := hlen
  · intro st n hlen
    refine ⟨capFilter_length st n hlen, capFilter_subset st n, ?_⟩
    intro e he e' he' hlt
    have hth : capThold st n ≤ e'.2.1 := by
      unfold capFilter at he'
      split at he'
      · rcases List.mem_append.1 he' with h | h
        · exact le_of_lt (by simpa using (List.mem_filter.1 h).2)
        · have hx : e'.2.1 = capThold st n := by
            simpa using (List.mem_filter.1 h).2
          exact le_of_eq hx.symm
      · exact le_of_lt (by simpa using (List.mem_filter.1 he').2)
    have hgt : capThold st n < e.2.1 := lt_of_le_of_lt hth hlt
    unfold capFilter
    split
    · exact List.mem_append_left _ (List.mem_filter.2 ⟨he, by simpa using hgt⟩)
    · exact List.mem_filter.2 ⟨he, by simpa using hgt⟩

/-- Witness for `gsofia_cap_spec` at concrete inputs. -/
theorem gsofia_cap_spec_witness :
    (({Finset.range 1} : Finset (Finset ℕ)).card ≤ 1) ∧
    ((capFilter [(∅, 0, ∅), ({0}, 1, ∅)] 1).length ≤ 1) :=
  ⟨gsofia_cap_spec.1 1 ([] : List (Finset ℕ)) 0 1 0 (by decide) {Finset.range 1} (by decide),
   (gsofia_cap_spec.2 ([(∅, 0, ∅), ({0}, 1, ∅)] : List GEntry) 1 (by decide)).1⟩

/-- C7 counterexample: on the three-object context with attribute extents
`{0,1}` and `{0,2}` (`Δ = 0`, no support bound), the uncapped run ends
with 4 candidate extents, yet with the cap `N = 2` the returned set is
*empty*: all four candidates tie at delta 1, so the threshold equals 1,
no candidate lies strictly above it, and the border does not fit within
`N`, hence everything at the threshold is dropped — not merely "as far
as needed to respect N" (which would keep exactly 2). -/
theorem gsofia_cap_counterexample :
    list_stable_extents_via_gsofia 3 [{0, 1}, {0, 2}] 0 (some 2) 0 = some ∅ ∧
    Option.map Finset.card
      (list_stable_extents_via_gsofia 3 [{0, 1}, {0, 2}] 0 none 0) = some 4 :=
  ⟨by decide, by decide⟩

/-!
## `list_keys` / `list_passkeys` (mine_equivalence_classes.py, lines 300–358)

`list_keys(intents, only_passkeys)` breadth-first-searches attribute sets in
ascending cardinality, ascending last-attribute order.  Attribute sets are
`Finset (Fin n)` (the bitarrays of width `n_attrs = n`); the Python dict
`keys_dict` is an association list updated in insertion order; the deque is a
`List`; the `while` loop takes explicit fuel; the initial `assert` (intents
must be sorted by ascending popcount) and the `IndexError` of `intents[-1]`
on an empty list are modelled as `Option.none`.
-/

/-- The attributes of `A` in ascending order (bitarray `itersearch(True)`). -/
def finsetAscF {n : ℕ} (A : Finset (Fin n)) : List (Fin n) :=
  (List.finRange n).filter (· ∈ A)

/-- Python `D[k]` / `k in D` on the association list modelling `keys_dict`. -/
def dictLookup {n : ℕ} (D : List (Finset (Fin n) × ℕ)) (k : Finset (Fin n)) :
    Option ℕ :=
  match D with
  | [] => none
  | p :: rest => if p.1 = k then some p.2 else dictLookup rest k

/-- Python `D[k] = v`: overwrite in place if the key is present, else append
(dict insertion order). -/
def dictInsert {n : ℕ} (D : List (Finset (Fin n) × ℕ)) (k : Finset (Fin n))
    (v : ℕ) : List (Finset (Fin n) × ℕ) :=
  match D with
  | [] => [(k, v)]
  | p :: rest => if p.1 = k then (k, v) :: rest else p :: dictInsert rest k v

/-- The key `k` is present in the dictionary (Python `k in keys_dict`). -/
def keyIn {n : ℕ} (D : List (Finset (Fin n) × ℕ)) (k : Finset (Fin n)) : Prop :=
  ∃ j, (k, j) ∈ D

def meetIdxAux {n : ℕ} (attrs : Finset (Fin n)) :
    List (Finset (Fin n)) → ℕ → Option ℕ
  | [], _ => none
  | I :: rest, k => if attrs ⊆ I then some k else meetIdxAux attrs rest (k + 1)

/-- `common_descendants.index(True)`: the index of the first intent containing
`attrs` (the AND of the `attrs_descendants` bit-columns of the members of
`attrs` selects exactly the intents that contain `attrs`), or `none` when no
intent contains it (`common_descendants.any()` is false). -/
def meetIdx {n : ℕ} (intents : List (Finset (Fin n))) (attrs : Finset (Fin n)) :
    Option ℕ :=
  meetIdxAux attrs intents 0

/-- `[attrs | m_ba for m_ba in single_attrs[max_attr_idx+1:]]`: the extensions
of `attrs` by one attribute strictly greater than all its members, in
ascending order of the new attribute. -/
def keyExtensions {n : ℕ} (attrs : Finset (Fin n)) : List (Finset (Fin n)) :=
  ((List.finRange n).filter (fun m => ∀ a ∈ attrs, a < m)).map
    (fun m => insert m attrs)

/-- The `while attrs_to_test:` loop of `list_keys`, with explicit fuel.
State: queue of candidate attribute sets, `keys_dict` association list,
`passkey_sizes` list.  The four guards are, in source order: some co-atom
`attrs \ {m}` is not a key; no intent contains `attrs`; (passkey mode) a
strictly smaller key of the same intent was found; some co-atom is a key of
the same intent.  Otherwise `attrs` is recorded and its one-attribute
extensions are enqueued unless its intent is the full attribute set. -/
def listKeysLoop {n : ℕ} (intents : List (Finset (Fin n))) (onlyPass : Bool) :
    ℕ → List (Finset (Fin n)) → List (Finset (Fin n) × ℕ) → List ℕ →
      List (Finset (Fin n) × ℕ)
  | 0, _, D, _ => D
  | _ + 1, [], D, _ => D
  | fuel + 1, attrs :: queue, D, sizes =>
    if ∃ m ∈ attrs, dictLookup D (attrs.erase m) = none then
      listKeysLoop intents onlyPass fuel queue D sizes
    else
      match meetIdx intents attrs with
      | none => listKeysLoop intents onlyPass fuel queue D sizes
      | some meet =>
        if onlyPass = true ∧ sizes.getD meet 0 < attrs.card then
          listKeysLoop intents onlyPass fuel queue D sizes
        else if ∃ m ∈ attrs, dictLookup D (attrs.erase m) = some meet then
          listKeysLoop intents onlyPass fuel queue D sizes
        else
          listKeysLoop intents onlyPass fuel
            (queue ++
              if intents.getD meet ∅ = Finset.univ then [] else
                keyExtensions attrs)
            (dictInsert D attrs meet)
            (if onlyPass then sizes.set meet attrs.card else sizes)

/-- Fuel provably sufficient for the search (the queue potential
`Σ_q (n+1)^(n - |q|)` starts at `n·(n+1)^(n-1)` and strictly decreases). -/
def listKeysFuel (n : ℕ) : ℕ :=
  n * (n + 1) ^ n + 1

/-- `list_keys(intents, only_passkeys)`.  `none` models the initial
`AssertionError` (intents not sorted by ascending popcount) and the
`IndexError` of `intents[-1]` on the empty list; `n_attrs` is the width `n`
of the bitarrays.  The seed dictionary is `{∅: 0}`, the seed queue the
single attributes in ascending order, the seed `passkey_sizes` is
`[n_attrs] * n_intents`. -/
def list_keys {n : ℕ} (intents : List (Finset (Fin n))) (onlyPass : Bool) :
    Option (List (Finset (Fin n) × ℕ)) :=
  if intents.isEmpty then none
  else if ((intents.zip intents.tail).all fun p => p.1.card ≤ p.2.card) = false
  then none
  else
    some (listKeysLoop intents onlyPass (listKeysFuel n)
      ((List.finRange n).map fun m => ({m} : Finset (Fin n)))
      [(∅, 0)] (List.replicate intents.length n))

/-- `list_passkeys(intents) = list_keys(intents, only_passkeys=True)`. -/
def list_passkeys {n : ℕ} (intents : List (Finset (Fin n))) :
    Option (List (Finset (Fin n) × ℕ)) :=
  list_keys intents true

/-- `A` is a minimum-cardinality generator of the intent at index `i`: the
first intent containing `A` is `intents[i]`, and no attribute set whose
first containing intent is also `intents[i]` is smaller.  (Over a closed
intent family, "first containing intent" is the closure, so these are
exactly the passkeys of `intents[i]`.) -/
def isMinGen {n : ℕ} (intents : List (Finset (Fin n))) (A : Finset (Fin n))
    (i : ℕ) : Prop :=
  meetIdx intents A = some i ∧
    ∀ B : Finset (Fin n), meetIdx intents B = some i → A.card ≤ B.card

lemma dictLookup_eq_some_mem {n : ℕ} (D : List (Finset (Fin n) × ℕ))
    (k : Finset (Fin n)) (v : ℕ) (h : dictLookup D k = some v) : (k, v) ∈ D := by
  induction D with
  | nil => simp [dictLookup] at h
  | cons p rest ih =>
    rw [dictLookup] at h
    by_cases hp : p.1 = k
    · rw [if_pos hp] at h
      have hv : p.2 = v := Option.some.inj h
      have hpkv : p = (k, v) := Prod.ext hp hv
      exact hpkv ▸ List.mem_cons_self _ _
    · rw [if_neg hp] at h
      exact List.mem_cons_of_mem _ (ih h)

lemma mem_dictLookup_isSome {n : ℕ} (D : List (Finset (Fin n) × ℕ))
    (k : Finset (Fin n)) (v : ℕ) (h : (k, v) ∈ D) :
    ∃ v', dictLookup D k = some v' := by
  induction D with
  | nil => simp at h
  | cons p rest ih =>
    rw [dictLookup]
    by_cases hp : p.1 = k
    · exact ⟨p.2, if_pos hp⟩
    · rw [if_neg hp]
      rcases List.mem_cons.1 h with heq | hmem
      · exact absurd (congrArg Prod.fst heq).symm hp
      · exact ih hmem

lemma dictInsert_mem {n : ℕ} (D : List (Finset (Fin n) × ℕ))
    (k : Finset (Fin n)) (v : ℕ) (q : Finset (Fin n) × ℕ)
    (h : q ∈ dictInsert D k v) : q = (k, v) ∨ q ∈ D := by
  induction D with
  | nil =>
    rw [dictInsert] at h
    exact Or.inl (List.mem_singleton.1 h)
  | cons p rest ih =>
    rw [dictInsert] at h
    by_cases hp : p.1 = k
    · rw [if_pos hp] at h
      rcases List.mem_cons.1 h with heq | hmem
      · exact Or.inl heq
      · exact Or.inr (List.mem_cons_of_mem _ hmem)
    · rw [if_neg hp] at h
      rcases List.mem_cons.1 h with heq | hmem
      · exact Or.inr (heq ▸ List.mem_cons_self _ _)
      · rcases ih hmem with h' | h'
        · exact Or.inl h'
        · exact Or.inr (List.mem_cons_of_mem _ h')

lemma dictInsert_mem_of_ne {n : ℕ} (D : List (Finset (Fin n) × ℕ))
    (k : Finset (Fin n)) (v : ℕ) (q : Finset (Fin n) × ℕ)
    (hq : q ∈ D) (hne : q.1 ≠ k) : q ∈ dictInsert D k v := by
  induction D with
  | nil => simp at hq
  | cons p rest ih =>
    rw [dictInsert]
    by_cases hp : p.1 = k
    · rw [if_pos hp]
      rcases List.mem_cons.1 hq with heq | hmem
      · exact absurd (heq ▸ hp) hne
      · exact List.mem_cons_of_mem _ hmem
    · rw [if_neg hp]
      rcases List.mem_cons.1 hq with heq | hmem
      · exact heq ▸ List.mem_cons_self _ _
      · exact List.mem_cons_of_mem _ (ih hmem)

lemma dictInsert_self_mem {n : ℕ} (D : List (Finset (Fin n) × ℕ))
    (k : Finset (Fin n)) (v : ℕ) : (k, v) ∈ dictInsert D k v := by
  induction D with
  | nil => rw [dictInsert]; exact List.mem_singleton.2 rfl
  | cons p rest ih =>
    rw [dictInsert]
    by_cases hp : p.1 = k
    · rw [if_pos hp]; exact List.mem_cons_self _ _
    · rw [if_neg hp]; exact List.mem_cons_of_mem _ ih

lemma dictInsert_keyIn_of {n : ℕ} (D : List (Finset (Fin n) × ℕ))
    (k k' : Finset (Fin n)) (v : ℕ) (h : keyIn D k') :
    keyIn (dictInsert D k v) k' := by
  by_cases hk : k' = k
  · exact ⟨v, hk ▸ dictInsert_self_mem D k v⟩
  · obtain ⟨j, hj⟩ := h
    exact ⟨j, dictInsert_mem_of_ne D k v (k', j) hj hk⟩

lemma keyIn_dictInsert {n : ℕ} (D : List (Finset (Fin n) × ℕ))
    (k k' : Finset (Fin n)) (v : ℕ) (h : keyIn (dictInsert D k v) k') :
    k' = k ∨ keyIn D k' := by
  obtain ⟨j, hj⟩ := h
  rcases dictInsert_mem D k v (k', j) hj with heq | hmem
  · exact Or.inl (congrArg Prod.fst heq)
  · exact Or.inr ⟨j, hmem⟩

/-- The set of emitted keys is downward closed.  Preserved through the whole
search because an attribute set is recorded only after the first guard
checked that each of its co-atoms is already in the dictionary. -/
def DownClosed {n : ℕ} (D : List (Finset (Fin n) × ℕ)) : Prop :=
  ∀ p ∈ D, ∀ m ∈ p.1, keyIn D (p.1.erase m)

lemma listKeysLoop_downClosed {n : ℕ} (intents : List (Finset (Fin n)))
    (onlyPass : Bool) :
    ∀ (fuel : ℕ) (queue : List (Finset (Fin n)))
      (D : List (Finset (Fin n) × ℕ)) (sizes : List ℕ), DownClosed D →
      DownClosed (listKeysLoop intents onlyPass fuel queue D sizes) := by
  intro fuel
  induction fuel with
  | zero => intro queue D sizes hD; rw [listKeysLoop]; exact hD
  | succ fuel ih =>
    intro queue D sizes hD
    match queue with
    | [] => rw [listKeysLoop]; exact hD
    | attrs :: queue =>
      rw [listKeysLoop]
      split
      · exact ih queue D sizes hD
      · next hg1 =>
        split
        · exact ih queue D sizes hD
        · next meet hmeet =>
          split
          · exact ih queue D sizes hD
          · split
            · exact ih queue D sizes hD
            · refine ih _ _ _ ?_
              intro p hp m hm
              rcases dictInsert_mem D attrs meet p hp with heq | hmem
              · subst heq
                simp only at hm
                have hlk : dictLookup D (attrs.erase m) ≠ none := by
                  intro hnone
                  exact hg1 ⟨m, hm, hnone⟩
                obtain ⟨v, hv⟩ := Option.ne_none_iff_exists'.1 hlk
                exact dictInsert_keyIn_of D attrs _ meet
                  ⟨v, dictLookup_eq_some_mem D _ v hv⟩
              · exact dictInsert_keyIn_of D attrs _ meet (hD p hmem m hm)

/-- C4: for every topologically sorted intent list (and either setting of the
`only_passkeys` flag), the key map returned by `list_keys` is downward
closed: for every emitted key `A` and every `m ∈ A`, the set `A \ {m}` is
also an emitted key, of a possibly different intent. -/
theorem list_keys_downward_closed {n : ℕ} (intents : List (Finset (Fin n)))
    (onlyPass : Bool) (D : List (Finset (Fin n) × ℕ))
    (hD : list_keys intents onlyPass = some D) :
    ∀ p ∈ D, ∀ m ∈ p.1, ∃ j, (p.1.erase m, j) ∈ D := by
  rw [list_keys] at hD
  split at hD
  · exact absurd hD (by simp)
  · split at hD
    · exact absurd hD (by simp)
    · have hD' := Option.some.inj hD
      have hseed : DownClosed ([((∅ : Finset (Fin n)), 0)]) := by
        intro p hp m hm
        obtain rfl := List.mem_singleton.1 hp
        simp at hm
      have := listKeysLoop_downClosed intents onlyPass (listKeysFuel n)
        ((List.finRange n).map fun m => ({m} : Finset (Fin n)))
        [(∅, 0)] (List.replicate intents.length n) hseed
      rw [hD'] at this
      exact this

/-- Witness for `list_keys_downward_closed`: on the sorted intent list
`[∅, {0}]` over one attribute, `list_keys` returns `{∅ ↦ 0, {0} ↦ 1}` and
the co-atom `{0} \ {0} = ∅` of the key `{0}` is indeed in the map. -/
theorem list_keys_downward_closed_witness :
    ∃ j, ((({0} : Finset (Fin 1)).erase 0, j)) ∈
      [((∅ : Finset (Fin 1)), 0), ({0}, 1)] :=
  list_keys_downward_closed [(∅ : Finset (Fin 1)), {0}] false
    [((∅ : Finset (Fin 1)), 0), ({0}, 1)] (by decide)
    (({0} : Finset (Fin 1)), 1) (by decide) 0 (by decide)

/-- C5 counterexample: over four attributes, the intent list
`[{0,1}, {2,3}, {1,2,3}]` is sorted by ascending popcount, so
`list_passkeys` accepts it, yet it returns `{∅ ↦ 0, {2} ↦ 1, {3} ↦ 1}`:
the intent `{1,2,3}` (index 2) has keys — `{1,2}` is a generator of it of
minimum cardinality (no set of size < 2 has first containing intent 2) —
but no passkey of intent 2 is returned at all.  The search prunes `{1}`
(a one-element generator of intent 0, same meet as its co-atom `∅`) and
then never extends it, losing all passkeys that contain attribute 1.
(The claim fails on arbitrary sorted lists; the amended theorem
`list_passkeys_exact` shows the claim does hold over intent families
closed under intersection and containing the full attribute set.) -/
theorem list_passkeys_misses_minimum_key :
    list_passkeys [({0, 1} : Finset (Fin 4)), {2, 3}, {1, 2, 3}] =
      some [((∅ : Finset (Fin 4)), 0), ({2}, 1), ({3}, 1)] ∧
    isMinGen [({0, 1} : Finset (Fin 4)), {2, 3}, {1, 2, 3}] {1, 2} 2 ∧
    (∀ p ∈ [((∅ : Finset (Fin 4)), 0), ({2}, 1), ({3}, 1)],
      p.1 ≠ ({1, 2} : Finset (Fin 4))) := by
  refine ⟨by decide, ⟨by decide, by decide⟩, by decide⟩

/-! ### The meet index as a closure operator

Over a sorted intent list closed under intersection and containing the full
attribute set, `meetIdx` picks the least intent containing its argument:
the closure.  These lemmas drive the exactness proof for `list_passkeys`. -/

lemma meetIdxAux_shift {n : ℕ} (attrs : Finset (Fin n))
    (l : List (Finset (Fin n))) :
    ∀ k : ℕ, meetIdxAux attrs l k = (meetIdxAux attrs l 0).map (· + k) := by
  induction l with
  | nil => intro k; rfl
  | cons I rest ih =>
    intro k
    rw [meetIdxAux, meetIdxAux]
    by_cases hI : attrs ⊆ I
    · rw [if_pos hI, if_pos hI]
      simp
    · rw [if_neg hI, if_neg hI, ih (k + 1), ih 1]
      cases meetIdxAux attrs rest 0 with
      | none => rfl
      | some a => simp only [Option.map_some']; congr 1; omega

lemma meetIdx_cons {n : ℕ} (attrs I : Finset (Fin n))
    (rest : List (Finset (Fin n))) :
    meetIdx (I :: rest) attrs =
      if attrs ⊆ I then some 0 else (meetIdx rest attrs).map (· + 1) := by
  rw [meetIdx, meetIdxAux]
  by_cases hI : attrs ⊆ I
  · rw [if_pos hI, if_pos hI]
  · rw [if_neg hI, if_neg hI, meetIdx, meetIdxAux_shift]

lemma getD_mem {α : Type} (l : List α) (d : α) :
    ∀ i, i < l.length → l.getD i d ∈ l := by
  induction l with
  | nil => intro i hi; simp at hi
  | cons a rest ih =>
    intro i hi
    cases i with
    | zero => simp
    | succ ii =>
      rw [List.getD_cons_succ]
      exact List.mem_cons_of_mem _ (ih ii (Nat.succ_lt_succ_iff.1 (by simpa using hi)))

lemma meetIdx_some_spec {n : ℕ} (l : List (Finset (Fin n)))
    (attrs : Finset (Fin n)) (i : ℕ) (h : meetIdx l attrs = some i) :
    i < l.length ∧ attrs ⊆ l.getD i ∅ := by
  induction l generalizing i with
  | nil => simp [meetIdx, meetIdxAux] at h
  | cons I rest ih =>
    rw [meetIdx_cons] at h
    by_cases hI : attrs ⊆ I
    · rw [if_pos hI] at h
      obtain rfl : (0 : ℕ) = i := Option.some.inj h
      exact ⟨Nat.succ_pos _, by simpa using hI⟩
    · rw [if_neg hI] at h
      cases hrest : meetIdx rest attrs with
      | none => rw [hrest] at h; simp at h
      | some j =>
        rw [hrest] at h
        simp only [Option.map_some'] at h
        obtain rfl : j + 1 = i := Option.some.inj h
        obtain ⟨h1, h2⟩ := ih j hrest
        exact ⟨Nat.succ_lt_succ h1, by simpa using h2⟩

lemma meetIdx_min {n : ℕ} (l : List (Finset (Fin n))) (attrs : Finset (Fin n))
    (i : ℕ) (h : meetIdx l attrs = some i) :
    ∀ j < i, ¬ attrs ⊆ l.getD j ∅ := by
  induction l generalizing i with
  | nil => simp [meetIdx, meetIdxAux] at h
  | cons I rest ih =>
    rw [meetIdx_cons] at h
    by_cases hI : attrs ⊆ I
    · rw [if_pos hI] at h
      obtain rfl : (0 : ℕ) = i := Option.some.inj h
      intro j hj
      omega
    · rw [if_neg hI] at h
      cases hrest : meetIdx rest attrs with
      | none => rw [hrest] at h; simp at h
      | some j' =>
        rw [hrest] at h
        simp only [Option.map_some'] at h
        obtain rfl : j' + 1 = i := Option.some.inj h
        intro j hj
        cases j with
        | zero => simpa using hI
        | succ jj =>
          rw [List.getD_cons_succ]
          exact ih j' hrest jj (Nat.succ_lt_succ_iff.1 hj)

lemma meetIdx_exists_le {n : ℕ} (l : List (Finset (Fin n)))
    (attrs : Finset (Fin n)) (t : ℕ) (ht : t < l.length)
    (hsub : attrs ⊆ l.getD t ∅) : ∃ i ≤ t, meetIdx l attrs = some i := by
  induction l generalizing t with
  | nil => simp at ht
  | cons I rest ih =>
    rw [meetIdx_cons]
    by_cases hI : attrs ⊆ I
    · exact ⟨0, Nat.zero_le _, by rw [if_pos hI]⟩
    · rw [if_neg hI]
      cases t with
      | zero =>
        rw [List.getD_cons_zero] at hsub
        exact absurd hsub hI
      | succ t' =>
        rw [List.getD_cons_succ] at hsub
        obtain ⟨i, hi, hsome⟩ :=
          ih t' (Nat.succ_lt_succ_iff.1 (by simpa using ht)) hsub
        exact ⟨i + 1, Nat.succ_le_succ hi, by rw [hsome]; rfl⟩

lemma meetIdx_congr {n : ℕ} (l : List (Finset (Fin n))) (A B : Finset (Fin n))
    (h : ∀ J ∈ l, (A ⊆ J ↔ B ⊆ J)) : meetIdx l A = meetIdx l B := by
  induction l with
  | nil => rfl
  | cons I rest ih =>
    rw [meetIdx_cons, meetIdx_cons]
    have hI := h I (List.mem_cons_self _ _)
    by_cases hA : A ⊆ I
    · rw [if_pos hA, if_pos (hI.1 hA)]
    · rw [if_neg hA, if_neg (fun hB => hA (hI.2 hB)),
        ih (fun J hJ => h J (List.mem_cons_of_mem _ hJ))]

lemma meetIdx_mono {n : ℕ} (l : List (Finset (Fin n))) (A B : Finset (Fin n))
    (hBA : B ⊆ A) (i : ℕ) (h : meetIdx l A = some i) :
    ∃ j ≤ i, meetIdx l B = some j := by
  obtain ⟨hi, hsub⟩ := meetIdx_some_spec l A i h
  exact meetIdx_exists_le l B i hi (hBA.trans hsub)

lemma meetIdx_empty {n : ℕ} (l : List (Finset (Fin n))) (hne : l ≠ []) :
    meetIdx l ∅ = some 0 := by
  cases l with
  | nil => exact absurd rfl hne
  | cons I rest => rw [meetIdx_cons, if_pos (Finset.empty_subset I)]

/-- The initial `assert` of `list_keys` in index form: cardinalities of the
intents are monotone in the index. -/
lemma cards_mono_of_zipAll {n : ℕ} (l : List (Finset (Fin n)))
    (h : ((l.zip l.tail).all fun p => p.1.card ≤ p.2.card) = true) :
    ∀ i j, i ≤ j → j < l.length → (l.getD i ∅).card ≤ (l.getD j ∅).card := by
  induction l with
  | nil => intro i j hij hj; simp at hj
  | cons I rest ih =>
    cases rest with
    | nil =>
      intro i j hij hj
      simp only [List.length_cons, List.length_nil] at hj
      obtain rfl : j = 0 := by omega
      obtain rfl : i = 0 := by omega
      exact le_refl _
    | cons J rest' =>
      simp only [List.tail_cons, List.zip_cons_cons, List.all_cons,
        Bool.and_eq_true, decide_eq_true_eq] at h
      obtain ⟨hIJ, h'⟩ := h
      have h'' : (((J :: rest').zip (J :: rest').tail).all
          fun p => p.1.card ≤ p.2.card) = true := by
        simpa using h'
      intro i j hij hj
      cases j with
      | zero =>
        obtain rfl : i = 0 := by omega
        exact le_refl _
      | succ jj =>
        cases i with
        | zero =>
          rw [List.getD_cons_zero, List.getD_cons_succ]
          have h0 : ((J :: rest').getD 0 ∅).card ≤
              ((J :: rest').getD jj ∅).card :=
            ih h'' 0 jj (Nat.zero_le _) (Nat.succ_lt_succ_iff.1 (by simpa using hj))
          rw [List.getD_cons_zero] at h0
          exact hIJ.trans h0
        | succ ii =>
          rw [List.getD_cons_succ, List.getD_cons_succ]
          exact ih h'' ii jj (Nat.succ_le_succ_iff.1 hij)
            (Nat.succ_lt_succ_iff.1 (by simpa using hj))

/-- Under the sortedness assert and closure under intersection, the first
intent containing `A` is contained in every intent containing `A`: it is
the closure of `A` in the intent family. -/
lemma meetIdx_least_container {n : ℕ} (l : List (Finset (Fin n)))
    (hsort : ((l.zip l.tail).all fun p => p.1.card ≤ p.2.card) = true)
    (hinter : ∀ I ∈ l, ∀ J ∈ l, I ∩ J ∈ l)
    (A : Finset (Fin n)) (i : ℕ) (h : meetIdx l A = some i) :
    ∀ J ∈ l, A ⊆ J → l.getD i ∅ ⊆ J := by
  intro J hJ hAJ
  obtain ⟨hi, hAi⟩ := meetIdx_some_spec l A i h
  by_contra hnotsub
  have hIi : l.getD i ∅ ∈ l := getD_mem l ∅ i hi
  have hK : l.getD i ∅ ∩ J ∈ l := hinter _ hIi _ hJ
  obtain ⟨t, htlen, hKt⟩ := List.mem_iff_getElem.1 hK
  have hKgetD : l.getD t ∅ = l.getD i ∅ ∩ J := by
    rw [List.getD_eq_getElem l ∅ htlen]
    exact hKt
  have hAK : A ⊆ l.getD t ∅ := by
    rw [hKgetD]
    exact Finset.subset_inter hAi hAJ
  obtain ⟨i', hi'le, hi'⟩ := meetIdx_exists_le l A t htlen hAK
  rw [h] at hi'
  obtain rfl : i = i' := Option.some.inj hi'
  have hKsub : l.getD i ∅ ∩ J ⊆ l.getD i ∅ := Finset.inter_subset_left
  have hKne : l.getD i ∅ ∩ J ≠ l.getD i ∅ := by
    intro heq
    exact hnotsub (by rw [← heq]; exact Finset.inter_subset_right)
  have hcardlt : (l.getD t ∅).card < (l.getD i ∅).card := by
    rw [hKgetD]
    exact Finset.card_lt_card (ssubset_of_subset_of_ne hKsub hKne)
  have hcardge := cards_mono_of_zipAll l hsort i t hi'le htlen
  omega

lemma meetIdx_total {n : ℕ} (l : List (Finset (Fin n)))
    (htop : Finset.univ ∈ l) (A : Finset (Fin n)) :
    ∃ i, meetIdx l A = some i := by
  obtain ⟨t, ht, hget⟩ := List.mem_iff_getElem.1 htop
  have hAt : A ⊆ l.getD t ∅ := by
    rw [List.getD_eq_getElem l ∅ ht, hget]
    exact Finset.subset_univ A
  obtain ⟨i, _, hi⟩ := meetIdx_exists_le l A t ht hAt
  exact ⟨i, hi⟩

lemma exists_isMinGen {n : ℕ} (l : List (Finset (Fin n))) (A : Finset (Fin n))
    (i : ℕ) (h : meetIdx l A = some i) :
    ∃ B, isMinGen l B i ∧ B.card ≤ A.card := by
  have hAmem : A ∈ Finset.univ.filter
      (fun B : Finset (Fin n) => meetIdx l B = some i) :=
    Finset.mem_filter.2 ⟨Finset.mem_univ _, h⟩
  obtain ⟨B, hB, hmin⟩ :=
    Finset.exists_min_image _ Finset.card ⟨A, hAmem⟩
  exact ⟨B, ⟨(Finset.mem_filter.1 hB).2,
    fun C hC => hmin C (Finset.mem_filter.2 ⟨Finset.mem_univ _, hC⟩)⟩,
    hmin A hAmem⟩

lemma container_iff_of_same_meet {n : ℕ} (l : List (Finset (Fin n)))
    (hsort : ((l.zip l.tail).all fun p => p.1.card ≤ p.2.card) = true)
    (hinter : ∀ I ∈ l, ∀ J ∈ l, I ∩ J ∈ l)
    (B C : Finset (Fin n)) (j : ℕ)
    (hB : meetIdx l B = some j) (hC : meetIdx l C = some j) :
    ∀ J ∈ l, (B ⊆ J ↔ C ⊆ J) := by
  intro J hJ
  constructor
  · intro hBJ
    exact (meetIdx_some_spec l C j hC).2.trans
      (meetIdx_least_container l hsort hinter B j hB J hJ hBJ)
  · intro hCJ
    exact (meetIdx_some_spec l B j hB).2.trans
      (meetIdx_least_container l hsort hinter C j hC J hJ hCJ)

/-- Every subset of a minimum-size generator is a minimum-size generator of
its own meet (the comment of `list_keys`: "every subset of a passkey is a
passkey"), over a sorted, intersection-closed family with a top. -/
lemma minGen_subset {n : ℕ} (l : List (Finset (Fin n)))
    (hsort : ((l.zip l.tail).all fun p => p.1.card ≤ p.2.card) = true)
    (hinter : ∀ I ∈ l, ∀ J ∈ l, I ∩ J ∈ l)
    (htop : Finset.univ ∈ l)
    {A : Finset (Fin n)} {i : ℕ} (hA : isMinGen l A i)
    {B : Finset (Fin n)} (hBA : B ⊆ A) : ∃ j, isMinGen l B j := by
  obtain ⟨j, hj⟩ := meetIdx_total l htop B
  refine ⟨j, hj, ?_⟩
  intro C hC
  by_contra hlt
  push_neg at hlt
  have hcongr : ∀ J ∈ l, (C ∪ (A \ B) ⊆ J ↔ A ⊆ J) := by
    intro J hJ
    have hBC := container_iff_of_same_meet l hsort hinter B C j hj hC J hJ
    constructor
    · intro hsub
      have hCJ : C ⊆ J := (Finset.union_subset_iff.1 hsub).1
      have hABJ : A \ B ⊆ J := (Finset.union_subset_iff.1 hsub).2
      have hBJ : B ⊆ J := hBC.2 hCJ
      calc A = B ∪ (A \ B) := (Finset.union_sdiff_of_subset hBA).symm
        _ ⊆ J := Finset.union_subset hBJ hABJ
    · intro hAJ
      exact Finset.union_subset (hBC.1 (hBA.trans hAJ))
        (Finset.sdiff_subset.trans hAJ)
  have hmeetE : meetIdx l (C ∪ (A \ B)) = some i := by
    rw [meetIdx_congr l _ A hcongr]
    exact hA.1
  have hcard := hA.2 _ hmeetE
  have h1 : (C ∪ (A \ B)).card ≤ C.card + (A \ B).card :=
    Finset.card_union_le _ _
  have h2 : (A \ B).card + B.card = A.card :=
    Finset.card_sdiff_add_card_eq_card hBA
  omega

/-! ### Ascending enumeration of a finset, its prefixes, and its maximum -/

lemma mem_finsetAscF {n : ℕ} (A : Finset (Fin n)) (x : Fin n) :
    x ∈ finsetAscF A ↔ x ∈ A := by
  simp [finsetAscF]

lemma pairwise_lt_finsetAscF {n : ℕ} (A : Finset (Fin n)) :
    (finsetAscF A).Pairwise (· < ·) :=
  (List.pairwise_lt_finRange n).filter _

lemma nodup_finsetAscF {n : ℕ} (A : Finset (Fin n)) : (finsetAscF A).Nodup :=
  (pairwise_lt_finsetAscF A).imp ne_of_lt

lemma toFinset_finsetAscF {n : ℕ} (A : Finset (Fin n)) :
    (finsetAscF A).toFinset = A := by
  ext x
  rw [List.mem_toFinset, mem_finsetAscF]

lemma length_finsetAscF {n : ℕ} (A : Finset (Fin n)) :
    (finsetAscF A).length = A.card := by
  have h := List.toFinset_card_of_nodup (nodup_finsetAscF A)
  rw [toFinset_finsetAscF] at h
  exact h.symm

/-- The first `k` attributes of `A` in ascending order, as a finset.  The
search of `list_keys` reaches every minimum generator through the chain of
its ascending prefixes. -/
def ascTake {n : ℕ} (A : Finset (Fin n)) (k : ℕ) : Finset (Fin n) :=
  ((finsetAscF A).take k).toFinset

lemma ascTake_zero {n : ℕ} (A : Finset (Fin n)) : ascTake A 0 = ∅ := by
  simp [ascTake]

lemma ascTake_subset {n : ℕ} (A : Finset (Fin n)) (k : ℕ) : ascTake A k ⊆ A := by
  intro x hx
  rw [ascTake, List.mem_toFinset] at hx
  exact (mem_finsetAscF A x).1 (List.take_subset _ _ hx)

lemma ascTake_card {n : ℕ} (A : Finset (Fin n)) (k : ℕ) (hk : k ≤ A.card) :
    (ascTake A k).card = k := by
  rw [ascTake, List.toFinset_card_of_nodup
    ((List.take_sublist _ _).nodup (nodup_finsetAscF A)), List.length_take,
    length_finsetAscF]
  omega

lemma ascTake_full {n : ℕ} (A : Finset (Fin n)) : ascTake A A.card = A := by
  rw [ascTake, ← length_finsetAscF, List.take_length, toFinset_finsetAscF]

lemma ascTake_succ {n : ℕ} (A : Finset (Fin n)) (k : ℕ) (hk : k < A.card) :
    ∃ x, x ∈ A ∧ (∀ a ∈ ascTake A k, a < x) ∧ x ∉ ascTake A k ∧
      ascTake A (k + 1) = insert x (ascTake A k) := by
  have hklen : k < (finsetAscF A).length := by rw [length_finsetAscF]; exact hk
  have hlt : ∀ a ∈ ascTake A k, a < (finsetAscF A).get ⟨k, hklen⟩ := by
    intro a ha
    rw [ascTake, List.mem_toFinset] at ha
    obtain ⟨ia, hia, hget⟩ := List.mem_iff_getElem.1 ha
    have hialt : ia < k := by
      rw [List.length_take] at hia
      omega
    have hia' : ia < (finsetAscF A).length := by omega
    have hgete : (finsetAscF A).get ⟨ia, hia'⟩ = a := by
      rw [← hget]
      exact (List.getElem_take _).symm
    rw [← hgete]
    exact List.pairwise_iff_getElem.1 (pairwise_lt_finsetAscF A) ia k hia' hklen
      hialt
  refine ⟨(finsetAscF A).get ⟨k, hklen⟩,
    (mem_finsetAscF A _).1 (List.get_mem _ _ _), hlt,
    fun hmem => lt_irrefl _ (hlt _ hmem), ?_⟩
  rw [ascTake, ascTake, List.take_succ]
  have hx : (finsetAscF A)[k]? = some ((finsetAscF A).get ⟨k, hklen⟩) := by
    rw [List.getElem?_eq_getElem hklen]
    rfl
  rw [hx, List.toFinset_append]
  simp [Finset.insert_eq, Finset.union_comm]

/-- The greatest attribute of a candidate set (`attrs_indices[-1]`), `none`
for the empty set. -/
def maxElt? {n : ℕ} (T : Finset (Fin n)) : Option (Fin n) :=
  (finsetAscF T).getLast?

lemma getLast?_mem {α : Type} :
    ∀ (l : List α) (x : α), l.getLast? = some x → x ∈ l
  | [], x, h => by simp at h
  | [a], x, h => by
      rw [List.getLast?_singleton] at h
      exact (Option.some.inj h) ▸ List.mem_singleton.2 rfl
  | a :: b :: t, x, h => by
      rw [List.getLast?_cons_cons] at h
      exact List.mem_cons_of_mem _ (getLast?_mem (b :: t) x h)

lemma sorted_getLast?_eq {α : Type} [LinearOrder α] :
    ∀ (l : List α) (x : α), l.Pairwise (· < ·) → x ∈ l → (∀ y ∈ l, y ≤ x) →
      l.getLast? = some x
  | [], x, _, hx, _ => by simp at hx
  | [a], x, _, hx, _ => by
      obtain rfl := List.mem_singleton.1 hx
      rfl
  | a :: b :: t, x, hp, hx, hmax => by
      rw [List.getLast?_cons_cons]
      have htail : (b :: t).Pairwise (· < ·) := (List.pairwise_cons.1 hp).2
      have hxtail : x ∈ b :: t := by
        rcases List.mem_cons.1 hx with rfl | hmem
        · have hab : x < b := (List.pairwise_cons.1 hp).1 b (List.mem_cons_self _ _)
          have hba : b ≤ x := hmax b (List.mem_cons_of_mem _ (List.mem_cons_self _ _))
          exact absurd hab (not_lt.2 hba)
        · exact hmem
      exact sorted_getLast?_eq (b :: t) x htail hxtail
        (fun y hy => hmax y (List.mem_cons_of_mem _ hy))

lemma maxElt?_mem {n : ℕ} (T : Finset (Fin n)) (x : Fin n)
    (h : maxElt? T = some x) : x ∈ T :=
  (mem_finsetAscF T x).1 (getLast?_mem _ x h)

lemma maxElt?_insert {n : ℕ} (A : Finset (Fin n)) (m : Fin n)
    (h : ∀ a ∈ A, a < m) : maxElt? (insert m A) = some m := by
  refine sorted_getLast?_eq _ m (pairwise_lt_finsetAscF _) ?_ ?_
  · exact (mem_finsetAscF _ m).2 (Finset.mem_insert_self m A)
  · intro y hy
    rcases Finset.mem_insert.1 ((mem_finsetAscF _ y).1 hy) with rfl | hmem
    · exact le_refl y
    · exact le_of_lt (h y hmem)

lemma mem_keyExtensions {n : ℕ} (attrs q : Finset (Fin n)) :
    q ∈ keyExtensions attrs ↔
      ∃ m, (∀ a ∈ attrs, a < m) ∧ insert m attrs = q := by
  simp [keyExtensions, List.mem_map, List.mem_filter, List.mem_finRange]

lemma keyExtensions_not_mem {n : ℕ} (attrs : Finset (Fin n)) (m : Fin n)
    (h : ∀ a ∈ attrs, a < m) : m ∉ attrs :=
  fun hmem => lt_irrefl m (h m hmem)

lemma keyExtensions_card {n : ℕ} (attrs q : Finset (Fin n))
    (h : q ∈ keyExtensions attrs) : q.card = attrs.card + 1 := by
  obtain ⟨m, hma, rfl⟩ := (mem_keyExtensions attrs q).1 h
  exact Finset.card_insert_of_not_mem (keyExtensions_not_mem attrs m hma)

lemma nodup_keyExtensions {n : ℕ} (attrs : Finset (Fin n)) :
    (keyExtensions attrs).Nodup := by
  refine List.Nodup.map_on ?_ ((List.nodup_finRange n).filter _)
  intro m₁ h₁ m₂ h₂ heq
  have hm₁ : ∀ a ∈ attrs, a < m₁ := by
    simpa using (List.mem_filter.1 h₁).2
  rcases Finset.mem_insert.1 (heq ▸ Finset.mem_insert_self m₁ attrs) with h | h
  · exact h
  · exact absurd h (keyExtensions_not_mem attrs m₁ hm₁)

lemma getD_set_self (l : List ℕ) :
    ∀ (i v : ℕ), i < l.length → (l.set i v).getD i 0 = v := by
  induction l with
  | nil => intro i v hi; simp at hi
  | cons a rest ih =>
    intro i v hi
    cases i with
    | zero => rfl
    | succ ii =>
      rw [List.set_cons_succ, List.getD_cons_succ]
      exact ih ii v (Nat.succ_lt_succ_iff.1 (by simpa using hi))

lemma getD_set_ne (l : List ℕ) :
    ∀ (i j v : ℕ), i ≠ j → (l.set i v).getD j 0 = l.getD j 0 := by
  induction l with
  | nil => intro i j v _; rfl
  | cons a rest ih =>
    intro i j v hne
    cases i with
    | zero =>
      cases j with
      | zero => exact absurd rfl hne
      | succ jj => rfl
    | succ ii =>
      cases j with
      | zero => rfl
      | succ jj =>
        rw [List.set_cons_succ, List.getD_cons_succ, List.getD_cons_succ]
        exact ih ii jj v (fun h => hne (by rw [h]))

lemma getD_replicate (c : ℕ) :
    ∀ (len i : ℕ), i < len → (List.replicate len c).getD i 0 = c := by
  intro len
  induction len with
  | zero => intro i hi; omega
  | succ len' ih =>
    intro i hi
    rw [List.replicate_succ]
    cases i with
    | zero => rfl
    | succ ii =>
      rw [List.getD_cons_succ]
      exact ih ii (by omega)

lemma sum_map_eq_of_const {α : Type} (f : α → ℕ) (c : ℕ) :
    ∀ (l : List α), (∀ x ∈ l, f x = c) → (l.map f).sum = l.length * c := by
  intro l
  induction l with
  | nil => intro _; simp
  | cons a rest ih =>
    intro h
    rw [List.map_cons, List.sum_cons, List.length_cons,
      h a (List.mem_cons_self _ _), ih (fun x hx => h x (List.mem_cons_of_mem _ hx)),
      Nat.succ_mul, Nat.add_comm]

lemma pairwise_card_of_eq {n : ℕ} (c0 : ℕ) :
    ∀ (l : List (Finset (Fin n))), (∀ x ∈ l, x.card = c0) →
      l.Pairwise (fun a b => a.card ≤ b.card) := by
  intro l
  induction l with
  | nil => intro _; exact List.Pairwise.nil
  | cons a rest ih =>
    intro h
    refine List.pairwise_cons.2 ⟨?_, ih (fun x hx => h x (List.mem_cons_of_mem _ hx))⟩
    intro b hb
    rw [h a (List.mem_cons_self _ _), h b (List.mem_cons_of_mem _ hb)]

lemma head?_mem {α : Type} (l : List α) (h : α) (hh : l.head? = some h) :
    h ∈ l := by
  cases l with
  | nil => simp at hh
  | cons a rest =>
    rw [List.head?_cons] at hh
    exact (Option.some.inj hh) ▸ List.mem_cons_self _ _

/-- The queue potential: `Σ_q (n+1)^(n - |q|)`.  Recording an element of
cardinality `c` removes weight `(n+1)^(n-c)` and adds at most `n` elements
of weight `(n+1)^(n-c-1)` each, so the potential strictly decreases at
every loop iteration. -/
def qWeight (n : ℕ) (queue : List (Finset (Fin n))) : ℕ :=
  (queue.map fun q => (n + 1) ^ (n - q.card)).sum

lemma qWeight_cons {n : ℕ} (attrs : Finset (Fin n))
    (queue : List (Finset (Fin n))) :
    qWeight n (attrs :: queue) = (n + 1) ^ (n - attrs.card) + qWeight n queue := by
  rw [qWeight, List.map_cons, List.sum_cons, qWeight]

lemma qWeight_append {n : ℕ} (q₁ q₂ : List (Finset (Fin n))) :
    qWeight n (q₁ ++ q₂) = qWeight n q₁ + qWeight n q₂ := by
  rw [qWeight, List.map_append, List.sum_append, qWeight, qWeight]

lemma qWeight_keyExtensions_lt {n : ℕ} (attrs : Finset (Fin n)) :
    qWeight n (keyExtensions attrs) < (n + 1) ^ (n - attrs.card) := by
  cases hke : keyExtensions attrs with
  | nil =>
    have h0 : qWeight n ([] : List (Finset (Fin n))) = 0 := rfl
    rw [h0]
    exact pow_pos (by omega) _
  | cons e rest =>
    have hcard : ∀ x ∈ keyExtensions attrs,
        (n + 1) ^ (n - x.card) = (n + 1) ^ (n - attrs.card - 1) := by
      intro x hx
      rw [keyExtensions_card attrs x hx, Nat.sub_sub]
    have hsum : qWeight n (keyExtensions attrs) =
        (keyExtensions attrs).length * (n + 1) ^ (n - attrs.card - 1) := by
      rw [qWeight]
      exact sum_map_eq_of_const _ _ _ hcard
    have hlen : (keyExtensions attrs).length ≤ n := by
      rw [keyExtensions]
      calc (((List.finRange n).filter (fun m => ∀ a ∈ attrs, a < m)).map
            (fun m => insert m attrs)).length
          = ((List.finRange n).filter (fun m => ∀ a ∈ attrs, a < m)).length :=
            by simp
        _ ≤ (List.finRange n).length := List.length_filter_le _ _
        _ = n := List.length_finRange n
    have hcn : attrs.card < n := by
      have he : e ∈ keyExtensions attrs := hke ▸ List.mem_cons_self _ _
      obtain ⟨m, hma, _⟩ := (mem_keyExtensions attrs e).1 he
      have hm : m ∉ attrs := keyExtensions_not_mem attrs m hma
      have hle : attrs.card ≤ n := by
        simpa using Finset.card_le_univ attrs
      rcases Nat.lt_or_ge attrs.card n with h | h
      · exact h
      · have hceq : attrs.card = n := le_antisymm hle h
        have huniv : attrs = Finset.univ := by
          apply Finset.eq_univ_of_card
          simpa using hceq
        exact absurd (huniv ▸ Finset.mem_univ m) hm
    rw [← hke, hsum]
    have hpow : (n + 1) ^ (n - attrs.card) =
        (n + 1) * (n + 1) ^ (n - attrs.card - 1) := by
      have heq : n - attrs.card = (n - attrs.card - 1) + 1 := by omega
      rw [heq, pow_succ]
      exact Nat.mul_comm _ _
    rw [hpow]
    have hwpos : 0 < (n + 1) ^ (n - attrs.card - 1) := pow_pos (by omega) _
    calc (keyExtensions attrs).length * (n + 1) ^ (n - attrs.card - 1)
        ≤ n * (n + 1) ^ (n - attrs.card - 1) :=
          Nat.mul_le_mul_right _ hlen
      _ < (n + 1) * (n + 1) ^ (n - attrs.card - 1) :=
          mul_lt_mul_of_pos_right (by omega) hwpos

lemma head?_eq_cons {α : Type} (l : List α) (h : α) (hh : l.head? = some h) :
    ∃ t, l = h :: t := by
  cases l with
  | nil => simp at hh
  | cons a rest =>
    rw [List.head?_cons] at hh
    exact ⟨rest, by rw [Option.some.inj hh]⟩

/-- The loop invariant of `list_keys` in passkey mode.  `queue`/`D`/`sizes`
are the live `attrs_to_test`/`keys_dict`/`passkey_sizes`: the dictionary
holds only minimum generators (`sound`), every minimum generator is either
recorded or reachable through an ascending prefix still queued (`complete`),
`passkey_sizes[i]` is `n` until a generator of intent `i` is recorded and
its cardinality afterwards, the queue is sorted by cardinality with gap at
most one above its head, has no duplicates, no recorded and no empty
elements, and each queued candidate extends a recorded key by its own
maximum. -/
structure KeysInv {n : ℕ} (intents : List (Finset (Fin n)))
    (queue : List (Finset (Fin n))) (D : List (Finset (Fin n) × ℕ))
    (sizes : List ℕ) : Prop where
  sizesLen : sizes.length = intents.length
  sound : ∀ p ∈ D, isMinGen intents p.1 p.2
  complete : ∀ P j, isMinGen intents P j →
    keyIn D P ∨ ∃ k, 1 ≤ k ∧ k ≤ P.card ∧ ascTake P k ∈ queue
  sizesOk : ∀ i < intents.length, sizes.getD i 0 = n ∨
    ∃ B, (B, i) ∈ D ∧ B ≠ ∅ ∧ sizes.getD i 0 = B.card
  sizesEntry : ∀ B i, (B, i) ∈ D → B ≠ ∅ → sizes.getD i 0 = B.card
  sortedQ : queue.Pairwise (fun a b => a.card ≤ b.card)
  gapQ : ∀ h q, queue.head? = some h → q ∈ queue → q.card ≤ h.card + 1
  nodupQ : queue.Nodup
  freshQ : ∀ q ∈ queue, ¬ keyIn D q
  neQ : ∀ q ∈ queue, q ≠ ∅
  cardLeQ : ∀ B, keyIn D B → ∀ q ∈ queue, B.card ≤ q.card
  parentQ : ∀ T ∈ queue, ∀ x, maxElt? T = some x → keyIn D (T.erase x)

/-- Popping a candidate that is not a minimum generator of any intent
preserves the invariant. -/
lemma keysInv_pop {n : ℕ} (intents : List (Finset (Fin n)))
    (hsort : ((intents.zip intents.tail).all fun p => p.1.card ≤ p.2.card) = true)
    (hinter : ∀ I ∈ intents, ∀ J ∈ intents, I ∩ J ∈ intents)
    (htop : Finset.univ ∈ intents)
    (attrs : Finset (Fin n)) (queue : List (Finset (Fin n)))
    (D : List (Finset (Fin n) × ℕ)) (sizes : List ℕ)
    (hInv : KeysInv intents (attrs :: queue) D sizes)
    (hnotmin : ∀ j, ¬ isMinGen intents attrs j) :
    KeysInv intents queue D sizes where
  sizesLen := hInv.sizesLen
  sound := hInv.sound
  complete := by
    intro P j hPj
    rcases hInv.complete P j hPj with hk | ⟨k, hk1, hkc, hmem⟩
    · exact Or.inl hk
    · rcases List.mem_cons.1 hmem with heq | hmem'
      · exfalso
        obtain ⟨j', hj'⟩ := minGen_subset intents hsort hinter htop hPj
          (heq ▸ ascTake_subset P k)
        exact hnotmin j' hj'
      · exact Or.inr ⟨k, hk1, hkc, hmem'⟩
  sizesOk := hInv.sizesOk
  sizesEntry := hInv.sizesEntry
  sortedQ := (List.pairwise_cons.1 hInv.sortedQ).2
  gapQ := by
    intro h q hh hq
    have hhq : h ∈ queue := head?_mem queue h hh
    have h1 : attrs.card ≤ h.card := (List.pairwise_cons.1 hInv.sortedQ).1 h hhq
    have h2 : q.card ≤ attrs.card + 1 :=
      hInv.gapQ attrs q rfl (List.mem_cons_of_mem _ hq)
    omega
  nodupQ := (List.nodup_cons.1 hInv.nodupQ).2
  freshQ := fun q hq => hInv.freshQ q (List.mem_cons_of_mem _ hq)
  neQ := fun q hq => hInv.neQ q (List.mem_cons_of_mem _ hq)
  cardLeQ := fun B hB q hq => hInv.cardLeQ B hB q (List.mem_cons_of_mem _ hq)
  parentQ := fun T hT => hInv.parentQ T (List.mem_cons_of_mem _ hT)

/-- When all four guards of the loop let a candidate through, the candidate
really is a minimum generator of its meet intent: a strictly smaller
generator would either be recorded (so the passkey-size guard or, for the
empty set, the same-meet guard would have fired) or still be queued (but
the queue only holds sets at least as large as the head). -/
lemma record_isMinGen {n : ℕ} (intents : List (Finset (Fin n)))
    (hne : intents ≠ [])
    (attrs : Finset (Fin n)) (queue : List (Finset (Fin n)))
    (D : List (Finset (Fin n) × ℕ)) (sizes : List ℕ) (meet : ℕ)
    (hInv : KeysInv intents (attrs :: queue) D sizes)
    (hg1 : ¬ ∃ m ∈ attrs, dictLookup D (attrs.erase m) = none)
    (hmeet : meetIdx intents attrs = some meet)
    (hg3 : ¬ sizes.getD meet 0 < attrs.card)
    (hg4 : ¬ ∃ m ∈ attrs, dictLookup D (attrs.erase m) = some meet) :
    isMinGen intents attrs meet := by
  refine ⟨hmeet, ?_⟩
  intro C hC
  by_contra hlt
  push_neg at hlt
  obtain ⟨B₀, hB₀, hB₀c⟩ := exists_isMinGen intents C meet hC
  have hB₀lt : B₀.card < attrs.card := lt_of_le_of_lt hB₀c hlt
  rcases hInv.complete B₀ meet hB₀ with hkey | ⟨k, hk1, hkc, hmem⟩
  · obtain ⟨j₀, hj₀⟩ := hkey
    have hs := hInv.sound _ hj₀
    have hj₀meet : j₀ = meet := by
      have h1 := hs.1
      have h2 := hB₀.1
      rw [h1] at h2
      exact Option.some.inj h2
    by_cases hB₀e : B₀ = ∅
    · have hmeet0 : meet = 0 := by
        have hB := hB₀.1
        rw [hB₀e, meetIdx_empty intents hne] at hB
        exact (Option.some.inj hB).symm
      obtain ⟨m, hm⟩ :=
        Finset.nonempty_iff_ne_empty.2 (hInv.neQ attrs (List.mem_cons_self _ _))
      have hlk : dictLookup D (attrs.erase m) ≠ none :=
        fun hnone => hg1 ⟨m, hm, hnone⟩
      obtain ⟨v, hv⟩ := Option.ne_none_iff_exists'.1 hlk
      have hvmem := dictLookup_eq_some_mem D _ v hv
      have hvs := hInv.sound _ hvmem
      obtain ⟨j', hj'le, hj'⟩ := meetIdx_mono intents attrs (attrs.erase m)
        (Finset.erase_subset m attrs) meet hmeet
      have hveq : j' = v := by
        have h1 := hvs.1
        rw [hj'] at h1
        exact Option.some.inj h1
      have hlast : dictLookup D (attrs.erase m) = some meet := by
        rw [hv]
        have : v = meet := by omega
        rw [this]
      exact hg4 ⟨m, hm, hlast⟩
    · have hsz := hInv.sizesEntry B₀ j₀ hj₀ hB₀e
      rw [hj₀meet] at hsz
      omega
  · have hck : (ascTake B₀ k).card = k := ascTake_card B₀ k hkc
    rcases List.mem_cons.1 hmem with heq | hmem'
    · rw [heq] at hck
      omega
    · have h1 : attrs.card ≤ (ascTake B₀ k).card :=
        (List.pairwise_cons.1 hInv.sortedQ).1 _ hmem'
      omega

/-- Recording a minimum generator and enqueueing its one-attribute
extensions preserves the invariant. -/
lemma keysInv_record {n : ℕ} (intents : List (Finset (Fin n)))
    (attrs : Finset (Fin n)) (queue : List (Finset (Fin n)))
    (D : List (Finset (Fin n) × ℕ)) (sizes : List ℕ) (meet : ℕ)
    (hInv : KeysInv intents (attrs :: queue) D sizes)
    (hMG : isMinGen intents attrs meet) :
    KeysInv intents
      (queue ++ if intents.getD meet ∅ = Finset.univ then []
        else keyExtensions attrs)
      (dictInsert D attrs meet) (sizes.set meet attrs.card) := by
  have hmeetlen : meet < intents.length := (meetIdx_some_spec _ _ _ hMG.1).1
  have hslen : meet < sizes.length := by rw [hInv.sizesLen]; exact hmeetlen
  have hF2 : ∀ q ∈ queue, attrs.card ≤ q.card :=
    (List.pairwise_cons.1 hInv.sortedQ).1
  have hF3 : ¬ keyIn D attrs := hInv.freshQ attrs (List.mem_cons_self _ _)
  have hF4 : attrs ≠ ∅ := hInv.neQ attrs (List.mem_cons_self _ _)
  have hattrsnotq : attrs ∉ queue := (List.nodup_cons.1 hInv.nodupQ).1
  set push := (if intents.getD meet ∅ = Finset.univ then
    ([] : List (Finset (Fin n))) else keyExtensions attrs) with hpushdef
  have hpushmem : ∀ q ∈ push, ∃ m, (∀ a ∈ attrs, a < m) ∧ insert m attrs = q := by
    intro q hq
    rw [hpushdef] at hq
    split at hq
    · simp at hq
    · exact (mem_keyExtensions attrs q).1 hq
  have hpushcard : ∀ q ∈ push, q.card = attrs.card + 1 := by
    intro q hq
    obtain ⟨m, hma, hmq⟩ := hpushmem q hq
    rw [← hmq]
    exact Finset.card_insert_of_not_mem (keyExtensions_not_mem attrs m hma)
  refine ⟨?_, ?_, ?_, ?_, ?_, ?_, ?_, ?_, ?_, ?_, ?_, ?_⟩
  · rw [List.length_set]
    exact hInv.sizesLen
  · intro p hp
    rcases dictInsert_mem D attrs meet p hp with heq | hmem
    · subst heq
      exact hMG
    · exact hInv.sound p hmem
  · intro P j hPj
    rcases hInv.complete P j hPj with hk | ⟨k, hk1, hkc, hmem⟩
    · exact Or.inl (dictInsert_keyIn_of D attrs P meet hk)
    · rcases List.mem_cons.1 hmem with heq | hmem'
      · rcases Nat.eq_or_lt_of_le hkc with hkeq | hklt
        · have hfull : ascTake P k = P := by
            rw [hkeq]
            exact ascTake_full P
          rw [hfull] at heq
          exact Or.inl ⟨meet, heq ▸ dictInsert_self_mem D attrs meet⟩
        · obtain ⟨x, hxP, hxgt, hxnot, hsucc⟩ := ascTake_succ P k hklt
          have hatk : attrs.card = k := by
            rw [← heq]
            exact ascTake_card P k (le_of_lt hklt)
          have hnotuniv : intents.getD meet ∅ ≠ Finset.univ := by
            intro huniv
            have hPmeet : meetIdx intents P = some meet := by
              have hPsub : P ⊆ intents.getD meet ∅ := by
                rw [huniv]
                exact Finset.subset_univ P
              obtain ⟨i', hi'le, hi'⟩ :=
                meetIdx_exists_le intents P meet hmeetlen hPsub
              have hge : ¬ i' < meet := by
                intro hlt'
                have hPi' := (meetIdx_some_spec intents P i' hi').2
                have hattrsP : attrs ⊆ P := heq ▸ ascTake_subset P k
                exact meetIdx_min intents attrs meet hMG.1 i' hlt'
                  (hattrsP.trans hPi')
              have hieq : i' = meet := by omega
              rw [← hieq]
              exact hi'
            have hjeq : j = meet := by
              have h1 := hPj.1
              rw [hPmeet] at h1
              exact (Option.some.inj h1).symm
            have hmin := hPj.2 attrs (by rw [hjeq]; exact hMG.1)
            omega
          refine Or.inr ⟨k + 1, by omega, by omega, ?_⟩
          rw [hsucc]
          refine List.mem_append.2 (Or.inr ?_)
          rw [hpushdef, if_neg hnotuniv]
          refine (mem_keyExtensions attrs _).2 ⟨x, ?_, ?_⟩
          · intro a ha
            refine hxgt a ?_
            rw [heq]
            exact ha
          · rw [heq]
      · exact Or.inr ⟨k, hk1, hkc, List.mem_append.2 (Or.inl hmem')⟩
  · intro i hi
    by_cases hieq : i = meet
    · subst hieq
      exact Or.inr ⟨attrs, dictInsert_self_mem D attrs i, hF4,
        getD_set_self sizes i attrs.card hslen⟩
    · rcases hInv.sizesOk i hi with hn | ⟨B, hBD, hBne, hBc⟩
      · refine Or.inl ?_
        rw [getD_set_ne sizes meet i attrs.card (fun h => hieq h.symm)]
        exact hn
      · have hBnea : B ≠ attrs := by
          intro hBeq
          exact hF3 ⟨i, hBeq ▸ hBD⟩
        refine Or.inr ⟨B, dictInsert_mem_of_ne D attrs meet (B, i) hBD hBnea,
          hBne, ?_⟩
        rw [getD_set_ne sizes meet i attrs.card (fun h => hieq h.symm)]
        exact hBc
  · intro B i hBD' hBne
    rcases dictInsert_mem D attrs meet (B, i) hBD' with heq | hmem
    · have hB : B = attrs := congrArg Prod.fst heq
      have hi : i = meet := congrArg Prod.snd heq
      subst hB
      subst hi
      rw [getD_set_self sizes i B.card hslen]
    · by_cases hieq : i = meet
      · subst hieq
        have hBs := hInv.sound _ hmem
        have h1 : attrs.card ≤ B.card := hMG.2 B hBs.1
        have h2 : B.card ≤ attrs.card := hBs.2 attrs hMG.1
        rw [getD_set_self sizes i attrs.card hslen]
        omega
      · rw [getD_set_ne sizes meet i attrs.card (fun h => hieq h.symm)]
        exact hInv.sizesEntry B i hmem hBne
  · rw [List.pairwise_append]
    refine ⟨(List.pairwise_cons.1 hInv.sortedQ).2,
      pairwise_card_of_eq (attrs.card + 1) push hpushcard, ?_⟩
    intro a ha b hb
    have h1 : a.card ≤ attrs.card + 1 :=
      hInv.gapQ attrs a rfl (List.mem_cons_of_mem _ ha)
    have h2 : b.card = attrs.card + 1 := hpushcard b hb
    omega
  · intro h q hh hq
    rcases hq0 : queue with _ | ⟨h₁, rest⟩
    · rw [hq0] at hh hq
      rw [List.nil_append] at hh hq
      have h1 := hpushcard h (head?_mem _ h hh)
      have h2 := hpushcard q hq
      omega
    · rw [hq0] at hh hq
      rw [List.cons_append, List.head?_cons] at hh
      obtain rfl : h = h₁ := (Option.some.inj hh).symm
      rcases List.mem_cons.1 (by rw [List.cons_append] at hq; exact hq) with
        heq | hmem
      · rw [heq]
        omega
      · have hhq : attrs.card ≤ h.card := by
          refine hF2 h ?_
          rw [hq0]
          exact List.mem_cons_self _ _
        rcases List.mem_append.1 hmem with hml | hmp
        · have := hInv.gapQ attrs q rfl
            (List.mem_cons_of_mem _ (by rw [hq0]; exact List.mem_cons_of_mem _ hml))
          omega
        · have := hpushcard q hmp
          omega
  · rw [List.nodup_append]
    refine ⟨(List.nodup_cons.1 hInv.nodupQ).2, ?_, ?_⟩
    · rw [hpushdef]
      split
      · exact List.nodup_nil
      · exact nodup_keyExtensions attrs
    · intro a ha hapush
      obtain ⟨m, hma, hmeq⟩ := hpushmem a hapush
      have hmax : maxElt? a = some m := by
        rw [← hmeq]
        exact maxElt?_insert attrs m hma
      have hkey := hInv.parentQ a (List.mem_cons_of_mem _ ha) m hmax
      have hae : a.erase m = attrs := by
        rw [← hmeq]
        exact Finset.erase_insert (keyExtensions_not_mem attrs m hma)
      rw [hae] at hkey
      exact hF3 hkey
  · intro q hq hkey
    rcases keyIn_dictInsert D attrs q meet hkey with heq | hold
    · rcases List.mem_append.1 hq with hql | hqp
      · exact hattrsnotq (heq ▸ hql)
      · have hc := hpushcard q hqp
        rw [heq] at hc
        omega
    · rcases List.mem_append.1 hq with hql | hqp
      · exact hInv.freshQ q (List.mem_cons_of_mem _ hql) hold
      · have h1 := hInv.cardLeQ q hold attrs (List.mem_cons_self _ _)
        have h2 := hpushcard q hqp
        omega
  · intro q hq
    rcases List.mem_append.1 hq with hql | hqp
    · exact hInv.neQ q (List.mem_cons_of_mem _ hql)
    · obtain ⟨m, _, hmeq⟩ := hpushmem q hqp
      rw [← hmeq]
      exact Finset.insert_ne_empty m attrs
  · intro B hB q hq
    rcases keyIn_dictInsert D attrs B meet hB with heqB | holdB
    · subst heqB
      rcases List.mem_append.1 hq with hql | hqp
      · exact hF2 q hql
      · rw [hpushcard q hqp]
        omega
    · have hBc := hInv.cardLeQ B holdB attrs (List.mem_cons_self _ _)
      rcases List.mem_append.1 hq with hql | hqp
      · exact hBc.trans (hF2 q hql)
      · rw [hpushcard q hqp]
        omega
  · intro T hT x hx
    rcases List.mem_append.1 hT with hql | hqp
    · exact dictInsert_keyIn_of D attrs _ meet
        (hInv.parentQ T (List.mem_cons_of_mem _ hql) x hx)
    · obtain ⟨m, hma, hmeq⟩ := hpushmem T hqp
      have hmax : maxElt? T = some m := by
        rw [← hmeq]
        exact maxElt?_insert attrs m hma
      rw [hmax] at hx
      obtain rfl : m = x := Option.some.inj hx
      have hTe : T.erase m = attrs := by
        rw [← hmeq]
        exact Finset.erase_insert (keyExtensions_not_mem attrs m hma)
      rw [hTe]
      exact ⟨meet, dictInsert_self_mem D attrs meet⟩

/-- The seed state of `list_keys` satisfies the invariant. -/
lemma keysInv_init {n : ℕ} (intents : List (Finset (Fin n)))
    (hne : intents ≠ []) :
    KeysInv intents ((List.finRange n).map fun m => ({m} : Finset (Fin n)))
      [(∅, 0)] (List.replicate intents.length n) := by
  have hqmem : ∀ q ∈ (List.finRange n).map (fun m => ({m} : Finset (Fin n))),
      ∃ m, q = {m} := by
    intro q hq
    obtain ⟨m, _, hmq⟩ := List.mem_map.1 hq
    exact ⟨m, hmq.symm⟩
  have hqcard : ∀ q ∈ (List.finRange n).map (fun m => ({m} : Finset (Fin n))),
      q.card = 1 := by
    intro q hq
    obtain ⟨m, rfl⟩ := hqmem q hq
    exact Finset.card_singleton m
  refine ⟨?_, ?_, ?_, ?_, ?_, ?_, ?_, ?_, ?_, ?_, ?_, ?_⟩
  · exact List.length_replicate _ _
  · intro p hp
    obtain rfl := List.mem_singleton.1 hp
    exact ⟨meetIdx_empty intents hne, fun B _ => by simp⟩
  · intro P j hPj
    by_cases hPe : P = ∅
    · subst hPe
      exact Or.inl ⟨0, List.mem_singleton.2 rfl⟩
    · have hc : 1 ≤ P.card :=
        Finset.one_le_card.2 (Finset.nonempty_iff_ne_empty.2 hPe)
      obtain ⟨x, hxP, _, _, hsucc⟩ := ascTake_succ P 0 (by omega)
      refine Or.inr ⟨1, le_refl 1, hc, ?_⟩
      have hsucc' : ascTake P 1 = insert x (ascTake P 0) := hsucc
      rw [hsucc', ascTake_zero]
      exact List.mem_map.2 ⟨x, List.mem_finRange x, rfl⟩
  · intro i hi
    exact Or.inl (getD_replicate n intents.length i hi)
  · intro B i hBD hBne
    have heq := List.mem_singleton.1 hBD
    exact absurd (congrArg Prod.fst heq) hBne
  · exact pairwise_card_of_eq 1 _ hqcard
  · intro h q hh hq
    have h1 := hqcard h (head?_mem _ h hh)
    have h2 := hqcard q hq
    omega
  · refine List.Nodup.map_on ?_ (List.nodup_finRange n)
    intro m₁ _ m₂ _ heq
    exact Finset.singleton_inj.1 heq
  · intro q hq hkey
    obtain ⟨m, rfl⟩ := hqmem q hq
    obtain ⟨j, hj⟩ := hkey
    have heq := List.mem_singleton.1 hj
    exact Finset.singleton_ne_empty m (congrArg Prod.fst heq)
  · intro q hq
    obtain ⟨m, rfl⟩ := hqmem q hq
    exact Finset.singleton_ne_empty m
  · intro B hB q hq
    obtain ⟨j, hj⟩ := hB
    have heq := List.mem_singleton.1 hj
    have hBe : B = ∅ := congrArg Prod.fst heq
    rw [hBe]
    simp
  · intro T hT x hx
    obtain ⟨m, rfl⟩ := hqmem T hT
    have hxm : x = m := Finset.mem_singleton.1 (maxElt?_mem {m} x hx)
    subst hxm
    rw [Finset.erase_singleton]
    exact ⟨0, List.mem_singleton.2 rfl⟩

/-- The master induction: from an invariant state with enough fuel, the
loop of `list_keys` in passkey mode returns a dictionary holding exactly
the minimum generators. -/
lemma listKeysLoop_exact {n : ℕ} (intents : List (Finset (Fin n)))
    (hsort : ((intents.zip intents.tail).all fun p => p.1.card ≤ p.2.card) = true)
    (hinter : ∀ I ∈ intents, ∀ J ∈ intents, I ∩ J ∈ intents)
    (htop : Finset.univ ∈ intents) (hne : intents ≠ []) :
    ∀ (fuel : ℕ) (queue : List (Finset (Fin n)))
      (D : List (Finset (Fin n) × ℕ)) (sizes : List ℕ),
      KeysInv intents queue D sizes → qWeight n queue < fuel →
      (∀ p ∈ listKeysLoop intents true fuel queue D sizes,
        isMinGen intents p.1 p.2) ∧
      (∀ P j, isMinGen intents P j →
        keyIn (listKeysLoop intents true fuel queue D sizes) P) := by
  intro fuel
  induction fuel with
  | zero => intro queue D sizes _ hW; omega
  | succ fuel ih =>
    intro queue D sizes hInv hW
    match queue with
    | [] =>
      rw [listKeysLoop]
      refine ⟨hInv.sound, ?_⟩
      intro P j hPj
      rcases hInv.complete P j hPj with hk | ⟨k, _, _, hmem⟩
      · exact hk
      · simp at hmem
    | attrs :: queue =>
      have hWtail : qWeight n queue < fuel := by
        rw [qWeight_cons] at hW
        have hpos : 0 < (n + 1) ^ (n - attrs.card) := pow_pos (by omega) _
        omega
      rw [listKeysLoop]
      split
      · next hg1 =>
        refine ih queue D sizes ?_ hWtail
        refine keysInv_pop intents hsort hinter htop attrs queue D sizes hInv ?_
        intro j hj
        obtain ⟨m, hm⟩ := Finset.nonempty_iff_ne_empty.2
          (hInv.neQ attrs (List.mem_cons_self _ _))
        -- every minimum generator has all its co-atoms recorded
        obtain ⟨m', hm', hm'none⟩ := hg1
        have hsub : attrs.erase m' ⊆ attrs := Finset.erase_subset m' attrs
        obtain ⟨j', hj'⟩ := minGen_subset intents hsort hinter htop hj hsub
        rcases hInv.complete _ j' hj' with hkey | ⟨k, hk1, hkc, hmem⟩
        · obtain ⟨v, hv⟩ := hkey
          obtain ⟨v', hv'⟩ := mem_dictLookup_isSome D _ v hv
          rw [hv'] at hm'none
          exact Option.noConfusion hm'none
        · have hck : (ascTake (attrs.erase m') k).card = k :=
            ascTake_card _ k hkc
          have hce : (attrs.erase m').card < attrs.card :=
            Finset.card_erase_lt_of_mem hm'
          rcases List.mem_cons.1 hmem with heq | hmem'
          · rw [heq] at hck
            omega
          · have h1 : attrs.card ≤ (ascTake (attrs.erase m') k).card :=
              (List.pairwise_cons.1 hInv.sortedQ).1 _ hmem'
            omega
      · next hg1 =>
        split
        · next hmeetnone =>
          refine ih queue D sizes ?_ hWtail
          refine keysInv_pop intents hsort hinter htop attrs queue D sizes hInv ?_
          intro j hj
          rw [hj.1] at hmeetnone
          exact Option.noConfusion hmeetnone
        · next meet hmeet =>
          split
          · next hg3 =>
            refine ih queue D sizes ?_ hWtail
            refine keysInv_pop intents hsort hinter htop attrs queue D sizes
              hInv ?_
            intro j hj
            have hjm : j = meet := by
              have h1 := hj.1
              rw [hmeet] at h1
              exact (Option.some.inj h1).symm
            subst hjm
            -- the passkey-size guard fired: a smaller generator was recorded
            rcases hInv.sizesOk j ((meetIdx_some_spec _ _ _ hmeet).1) with
              hn | ⟨B, hBD, hBne, hBc⟩
            · have hcle : attrs.card ≤ n := by
                simpa using Finset.card_le_univ attrs
              omega
            · have hBs := hInv.sound _ hBD
              have h1 : attrs.card ≤ B.card := hj.2 B hBs.1
              omega
          · next hg3 =>
            split
            · next hg4 =>
              refine ih queue D sizes ?_ hWtail
              refine keysInv_pop intents hsort hinter htop attrs queue D sizes
                hInv ?_
              intro j hj
              have hjm : j = meet := by
                have h1 := hj.1
                rw [hmeet] at h1
                exact (Option.some.inj h1).symm
              subst hjm
              obtain ⟨m, hm, hmlk⟩ := hg4
              have hem := dictLookup_eq_some_mem D _ _ hmlk
              have hes := hInv.sound _ hem
              have h1 : attrs.card ≤ (attrs.erase m).card := hj.2 _ hes.1
              have h2 : (attrs.erase m).card < attrs.card :=
                Finset.card_erase_lt_of_mem hm
              omega
            · next hg4 =>
              have hMG : isMinGen intents attrs meet :=
                record_isMinGen intents hne attrs queue D sizes meet hInv hg1
                  hmeet (fun hlt => hg3 ⟨rfl, hlt⟩) hg4
              have hWnew : qWeight n (queue ++
                  if intents.getD meet ∅ = Finset.univ then []
                  else keyExtensions attrs) < fuel := by
                rw [qWeight_append, qWeight_cons] at *
                have hqp : qWeight n (if intents.getD meet ∅ = Finset.univ
                    then ([] : List (Finset (Fin n)))
                    else keyExtensions attrs) < (n + 1) ^ (n - attrs.card) := by
                  split
                  · have h0 : qWeight n ([] : List (Finset (Fin n))) = 0 := rfl
                    rw [h0]
                    exact pow_pos (by omega) _
                  · exact qWeight_keyExtensions_lt attrs
                omega
              exact ih _ _ _
                (keysInv_record intents attrs queue D sizes meet hInv hMG) hWnew

/-- C5 (amended): over an intent list closed under pairwise intersection
and containing the full attribute set — i.e. the intent family of a formal
context, in the topologically sorted order the function asserts —
`list_passkeys` returns exactly the passkeys: a pair `(A, i)` is in the
returned dictionary iff `A` is a minimum-cardinality generator of
`intents[i]`.  Both completeness and soundness hold for every intent that
has a generator at all.  (Without the closure hypotheses the claim is
false: `list_passkeys_misses_minimum_key`.) -/
theorem list_passkeys_exact {n : ℕ} (intents : List (Finset (Fin n)))
    (hinter : ∀ I ∈ intents, ∀ J ∈ intents, I ∩ J ∈ intents)
    (htop : Finset.univ ∈ intents)
    (D : List (Finset (Fin n) × ℕ)) (hD : list_passkeys intents = some D) :
    ∀ (A : Finset (Fin n)) (i : ℕ), ((A, i) ∈ D ↔ isMinGen intents A i) := by
  rw [list_passkeys, list_keys] at hD
  split at hD
  · exact absurd hD (by simp)
  · next hne' =>
    split at hD
    · exact absurd hD (by simp)
    · next hsort' =>
      have hne : intents ≠ [] := fun h => hne' (by rw [h]; rfl)
      have hsort : ((intents.zip intents.tail).all
          fun p => p.1.card ≤ p.2.card) = true := by
        rcases Bool.eq_false_or_eq_true
          ((intents.zip intents.tail).all fun p => p.1.card ≤ p.2.card) with
          ht | hf
        · exact ht
        · exact absurd hf hsort'
      have hD' := Option.some.inj hD
      have hWinit : qWeight n
          ((List.finRange n).map fun m => ({m} : Finset (Fin n))) <
          listKeysFuel n := by
        have hmap : qWeight n
            ((List.finRange n).map fun m => ({m} : Finset (Fin n))) =
            n * (n + 1) ^ (n - 1) := by
          rw [qWeight, List.map_map,
            sum_map_eq_of_const _ ((n + 1) ^ (n - 1)) (List.finRange n)
              (by intro x _; simp), List.length_finRange]
        rw [hmap, listKeysFuel]
        have hple : (n + 1) ^ (n - 1) ≤ (n + 1) ^ n :=
          Nat.pow_le_pow_right (by omega) (by omega)
        have hmul := Nat.mul_le_mul_left n hple
        omega
      obtain ⟨hsound, hcomp⟩ := listKeysLoop_exact intents hsort hinter htop
        hne (listKeysFuel n) _ _ _ (keysInv_init intents hne) hWinit
      rw [hD'] at hsound hcomp
      intro A i
      constructor
      · intro hAi
        exact hsound (A, i) hAi
      · intro hmin
        obtain ⟨j', hj'⟩ := hcomp A i hmin
        have hs := hsound _ hj'
        have hji : j' = i := by
          have h1 := hs.1
          have h2 := hmin.1
          rw [h1] at h2
          exact Option.some.inj h2
        rw [← hji]
        exact hj'

/-- Witness for `list_passkeys_exact`: the intent list `[∅, {0}]` over one
attribute is intersection-closed and contains the top; the theorem
certifies that the recorded pair `({0}, 1)` is a passkey: `{0}` is a
minimum-cardinality generator of intent 1. -/
theorem list_passkeys_exact_witness :
    isMinGen [(∅ : Finset (Fin 1)), {0}] {0} 1 :=
  (list_passkeys_exact [(∅ : Finset (Fin 1)), {0}] (by decide) (by decide)
    [((∅ : Finset (Fin 1)), 0), ({0}, 1)] (by decide) {0} 1).mp (by decide)

end Caspailleur
